import Mathlib

/-!
# Verification of the move-selection core of `domino-basico`

This file gives a shallow embedding of the board/tile model and the AI
move-selection code of the repository and proves properties about it.

The repository ships two implementation variants of the same game:

* the monolithic `script.js` (classes `Tile`, `Board`, `Player`, `AI`)
  — embedded below in namespace `ScriptJS`;
* the ES-module variant `src/js/tiles.js`, `src/js/board.js`, `src/js/ai.js`
  — embedded below in namespace `ModuleJS`.

Conventions of the embedding:

* JavaScript `null` becomes `Option.none`; a JS comparison `x === v` where `x`
  is a number and `v` is a number-or-null field becomes `some x = v`
  (a number never equals `null` in JS, and `some x = none` is false).
* Methods that mutate their receiver (`Board.addTile` in `script.js`) are
  embedded in state-passing style: the function returns the pair of the JS
  return value and the post-state of the receiver.
* Wall-clock observations (`Date.now() - startTime > timeLimit`) are embedded
  as a boolean oracle `o : Nat → Bool`, one index per check, and the theorems
  quantify over every oracle, i.e. over every possible timing behaviour.
* `Math.random()`-based choices are embedded by quantifying over natural
  number parameters that select the index actually drawn.
* All numeric scores in `script.js` are integer-valued, so they are embedded
  in `ℤ`; the module variant divides by 12 and multiplies by 0.5, so its
  scores live in `ℚ`.
-/

set_option autoImplicit false

namespace DominoBasico

/-- Placement side; the JS code uses the strings `"left"` and `"right"`. -/
inductive Side where
  | left
  | right
deriving DecidableEq, Repr

namespace ScriptJS

/-- Embeds `class Tile` of `script.js`: two end values and a numeric id.
The JS constructor stores its three arguments verbatim and performs no
validation whatsoever, so the embedding is the plain record constructor. -/
structure Tile where
  left : Nat
  right : Nat
  id : Nat
deriving DecidableEq, Repr

/-- `Tile.isDouble()`. -/
def Tile.isDouble (t : Tile) : Bool :=
  t.left == t.right

/-- `Tile.getValue()`. -/
def Tile.getValue (t : Tile) : Nat :=
  t.left + t.right

/-- `Tile.matches(value)` for a numeric argument. -/
def Tile.matchesValue (t : Tile) (value : Nat) : Bool :=
  t.left == value || t.right == value

/-- `Tile.matches(value)` where the argument may be `null` (a board end):
in JS a number never equals `null`. -/
def Tile.matchesEnd (t : Tile) : Option Nat → Bool
  | none => false
  | some v => t.matchesValue v

/-- `Tile.flip()` swaps the two end values. The JS method mutates the tile in
place; it is only ever invoked on a fresh clone, so the embedding returns the
flipped copy. -/
def Tile.flip (t : Tile) : Tile :=
  { t with left := t.right, right := t.left }

/-- `Tile.clone()` copies all three fields. -/
def Tile.clone (t : Tile) : Tile :=
  { left := t.left, right := t.right, id := t.id }

/-- Embeds `class Board` of `script.js`: the placed tiles in order plus the
two open-end scalars (`null` while the board is empty). -/
structure Board where
  tiles : List Tile
  leftEnd : Option Nat
  rightEnd : Option Nat
deriving DecidableEq, Repr

/-- `new Board()`. -/
def Board.init : Board :=
  { tiles := [], leftEnd := none, rightEnd := none }

/-- `Board.isEmpty()`. -/
def Board.isEmpty (b : Board) : Bool :=
  b.tiles.length == 0

/-- `Board.getEnds()`: `{left: null, right: null}` on an empty board,
otherwise the two stored scalars. -/
def Board.getEnds (b : Board) : Option Nat × Option Nat :=
  if b.isEmpty then (none, none) else (b.leftEnd, b.rightEnd)

/-- Embeds `Board.addTile(tile, position)`.  The JS method clones the tile,
then either inserts it (flipping the clone when its other end matches) and
returns `true`, or returns `false` leaving every field untouched.  The method
mutates its receiver, so the embedding returns the pair
`(JS return value, post-state of the receiver)`. -/
def Board.addTile (b : Board) (tile : Tile) (position : Side) : Bool × Board :=
  let tileCopy := tile.clone
  if b.isEmpty then
    (true, { b with tiles := b.tiles ++ [tileCopy],
                    leftEnd := some tileCopy.left,
                    rightEnd := some tileCopy.right })
  else
    match position with
    | Side.left =>
      if some tileCopy.right = b.leftEnd then
        (true, { b with tiles := tileCopy :: b.tiles, leftEnd := some tileCopy.left })
      else if some tileCopy.left = b.leftEnd then
        let flipped := tileCopy.flip
        (true, { b with tiles := flipped :: b.tiles, leftEnd := some flipped.left })
      else
        (false, b)
    | Side.right =>
      if some tileCopy.left = b.rightEnd then
        (true, { b with tiles := b.tiles ++ [tileCopy], rightEnd := some tileCopy.right })
      else if some tileCopy.right = b.rightEnd then
        let flipped := tileCopy.flip
        (true, { b with tiles := b.tiles ++ [flipped], rightEnd := some flipped.right })
      else
        (false, b)

/-- `AI.cloneBoard(board)`: a fresh `Board` whose tiles are clones of the
originals and whose end scalars are copied. -/
def cloneBoard (b : Board) : Board :=
  { tiles := b.tiles.map Tile.clone, leftEnd := b.leftEnd, rightEnd := b.rightEnd }

/-- One element of the array returned by `Player.getPlayableTiles`: a hand
tile together with its list of legal positions. -/
structure Playable where
  tile : Tile
  positions : List Side
deriving DecidableEq, Repr

/-- Embeds `Player.getPlayableTiles(board)`; `hand` is `this.hand`.  On an
empty board every hand tile is returned with the single position `'left'`;
otherwise each end is tested independently and tiles with no legal position
are dropped. -/
def getPlayableTiles (hand : List Tile) (board : Board) : List Playable :=
  if board.isEmpty then
    hand.map (fun t => { tile := t, positions := [Side.left] })
  else
    let ends := board.getEnds
    hand.filterMap (fun tile =>
      let positions :=
        (if tile.matchesEnd ends.1 then [Side.left] else []) ++
        (if tile.matchesEnd ends.2 then [Side.right] else [])
      if positions.isEmpty then none else some { tile := tile, positions := positions })

/-- Embeds `AI.evaluateMove(tile, position, player, board)`; `hand` is
`player.hand` (it still contains the candidate tile).  All five additive
terms of the source are integer-valued. -/
def evaluateMove (tile : Tile) (position : Side) (hand : List Tile) (board : Board) : Int :=
  let score1 : Int := if tile.isDouble then 25 else 0
  let score2 : Int := score1 + (tile.getValue : Int) * 2
  let leftCount := (hand.filter (fun t => t.matchesValue tile.left)).length
  let rightCount := (hand.filter (fun t => t.matchesValue tile.right)).length
  let score3 : Int := score2 + ((leftCount : Int) + (rightCount : Int)) * 3
  let score4 : Int :=
    if hand.length ≤ 3 then
      let value : Nat :=
        match position with
        | Side.left => if some tile.left = board.getEnds.1 then tile.right else tile.left
        | Side.right => if some tile.right = board.getEnds.2 then tile.left else tile.right
      let hasMatch := hand.any (fun t => t.id != tile.id && t.matchesValue value)
      if hasMatch then score3 else score3 - 10
    else score3
  let newLeft : Option Nat :=
    match position with
    | Side.left => some (if some tile.left = board.getEnds.1 then tile.right else tile.left)
    | Side.right => board.getEnds.1
  let newRight : Option Nat :=
    match position with
    | Side.right => some (if some tile.right = board.getEnds.2 then tile.left else tile.right)
    | Side.left => board.getEnds.2
  let futurePlayable := hand.filter (fun t =>
    t.id != tile.id && (t.matchesEnd newLeft || t.matchesEnd newRight))
  score4 + (futurePlayable.length : Int) * 5

end ScriptJS

/-- The `bestScore/bestMove` accumulator loop shared by the selectors of both
variants: `bestScore` starts at `-Infinity` and a candidate replaces the
current best exactly when its score is strictly greater (`score > bestScore`),
so the first candidate always wins against the initial accumulator. -/
def bestLoop {α β : Type} [LinearOrder β] (f : α → β) :
    List α → Option (α × β) → Option (α × β)
  | [], acc => acc
  | x :: r, acc =>
    match acc with
    | none => bestLoop f r (some (x, f x))
    | some (m, s) =>
      if s < f x then bestLoop f r (some (x, f x)) else bestLoop f r (some (m, s))

namespace ScriptJS

/-- The `(tile, position)` pairs visited by the nested
`for (playable of playableTiles) { for (position of playable.positions) ... }`
loops of `mediumMove`/`hardMove`, in enumeration order. -/
def candidates (playableTiles : List Playable) : List (Tile × Side) :=
  playableTiles.flatMap (fun p => p.positions.map (fun pos => (p.tile, pos)))

/-- Embeds `AI.mediumMove(playableTiles, player, board)`: evaluate every
legal `(tile, position)` pair once and keep the strictly best. -/
def mediumMove (playableTiles : List Playable) (hand : List Tile) (board : Board) :
    Option (Tile × Side) :=
  (bestLoop (fun c => evaluateMove c.1 c.2 hand board) (candidates playableTiles) none).map
    Prod.fst

/-- The adaptive depth of `AI.hardMove`:
`const maxDepth = pool.length > 5 ? 2 : 3`. -/
def hardMaxDepth (pool : List Tile) : Nat :=
  if pool.length > 5 then 2 else 3

/-- Embeds `AI.minimax` along its reachable paths.  Every call site of
`minimax` in `script.js` passes `isMaximizing = false`: `hardMove` does, and
the only recursive calls sit inside the `isMaximizing` branch, which is
therefore dead code.  With `isMaximizing = false` the function checks the
clock, then `depth === 0` (both returning the heuristic of the candidate),
and otherwise returns `-evaluateMove(...)` (the "opponent plays decently"
simplification); `timedOut` stands for the
`Date.now() - startTime > timeLimit` observation made on entry. -/
def minimaxReachable (timedOut : Bool) (tile : Tile) (position : Side)
    (hand : List Tile) (board : Board) (depth : Nat) : Int :=
  if timedOut then evaluateMove tile position hand board
  else if depth = 0 then evaluateMove tile position hand board
  else -(evaluateMove tile position hand board)

/-- The candidate loop of `AI.hardMove`.  `o k` reports whether the `k`-th
wall-clock check observes an expired budget (two checks per candidate: one in
the loop header of `hardMove`, one on entry to `minimax`).  On timeout the
loop returns the best move found so far or, failing that, the candidate
currently under evaluation — exactly the source's
`return bestMove || { tile: playable.tile, position }`. -/
def hardLoop (o : Nat → Bool) (hand : List Tile) (board : Board) (depth : Nat) :
    Nat → List (Tile × Side) → Option ((Tile × Side) × Int) → Option (Tile × Side)
  | _, [], acc => acc.map Prod.fst
  | k, c :: r, acc =>
    if o k then
      match acc with
      | some (m, _) => some m
      | none => some c
    else
      let score := minimaxReachable (o (k + 1)) c.1 c.2 hand board depth
      match acc with
      | none => hardLoop o hand board depth (k + 2) r (some (c, score))
      | some (m, s) =>
        if s < score then hardLoop o hand board depth (k + 2) r (some (c, score))
        else hardLoop o hand board depth (k + 2) r (some (m, s))

/-- Embeds `AI.hardMove(playableTiles, player, board, pool)`.  After the loop
the source falls back to
`bestMove || playableTiles[0] && {tile: playableTiles[0].tile, position: playableTiles[0].positions[0]}`. -/
def hardMove (o : Nat → Bool) (playableTiles : List Playable) (hand : List Tile)
    (board : Board) (pool : List Tile) : Option (Tile × Side) :=
  match hardLoop o hand board (hardMaxDepth pool - 1) 0 (candidates playableTiles) none with
  | some m => some m
  | none =>
    match playableTiles with
    | [] => none
    | p :: _ => p.positions.head?.map (fun pos => (p.tile, pos))

end ScriptJS

namespace ModuleJS

/-- Embeds the tile objects of `src/js/tiles.js`:
`{ a, b, id: "a-b", isDouble, orientation }`. -/
structure Tile where
  a : Nat
  b : Nat
  id : String
  isDouble : Bool
  orientation : String
deriving DecidableEq, Repr

/-- `rotateTile(tile)` / the inline `{ ...tile, a: tile.b, b: tile.a }` of
`canPlayLeft`/`canPlayRight`: a copy with the two ends swapped, every other
field spread-retained. -/
def rotateTile (t : Tile) : Tile :=
  { t with a := t.b, b := t.a }

/-- `generateTiles()`: the double loop `for a in 0..6, for b in a..6`. -/
def generateTiles : List Tile :=
  (List.range 7).flatMap (fun a =>
    ((List.range 7).drop a).map (fun b =>
      { a := a, b := b, id := toString a ++ "-" ++ toString b,
        isDouble := a == b, orientation := "horizontal" }))

/-- One `history` entry recorded by `placeLeft`/`placeRight`
(`{action: "place", side, tile, previousState: {leftValue, rightValue}}`). -/
structure HistoryEntry where
  action : String
  side : Side
  tile : Tile
  prevLeftValue : Option Nat
  prevRightValue : Option Nat
deriving DecidableEq, Repr

/-- Embeds the `BoardState` of `src/js/board.js`. -/
structure Board where
  tiles : List Tile
  leftValue : Option Nat
  rightValue : Option Nat
  history : List HistoryEntry
deriving DecidableEq, Repr

/-- `initBoard()`. -/
def initBoard : Board :=
  { tiles := [], leftValue := none, rightValue := none, history := [] }

/-- The object returned by `canPlayLeft`/`canPlayRight` when the play is
valid; the constant `valid: true` field is dropped and `null` becomes
`Option.none` at the call sites. -/
structure PlayInfo where
  tile : Tile
  side : Side
  needsRotate : Bool
deriving DecidableEq, Repr

/-- Embeds `canPlayLeft(board, tile)`: on an empty board (both end values
`null`) any tile is valid unrotated; otherwise the tile connects by its `b`
side, or rotated when only its `a` side matches; `null` when neither end
matches. -/
def canPlayLeft (board : Board) (tile : Tile) : Option PlayInfo :=
  if board.leftValue = none ∧ board.rightValue = none then
    some { tile := tile, side := Side.left, needsRotate := false }
  else if some tile.b = board.leftValue then
    some { tile := tile, side := Side.left, needsRotate := false }
  else if some tile.a = board.leftValue then
    some { tile := rotateTile tile, side := Side.left, needsRotate := true }
  else
    none

/-- Embeds `canPlayRight(board, tile)`: the tile connects by its `a` side, or
rotated when only its `b` side matches. -/
def canPlayRight (board : Board) (tile : Tile) : Option PlayInfo :=
  if board.leftValue = none ∧ board.rightValue = none then
    some { tile := tile, side := Side.right, needsRotate := false }
  else if some tile.a = board.rightValue then
    some { tile := tile, side := Side.right, needsRotate := false }
  else if some tile.b = board.rightValue then
    some { tile := rotateTile tile, side := Side.right, needsRotate := true }
  else
    none

/-- Embeds `placeLeft(board, playInfo)`: prepends the (already rotated) tile,
appends a history entry recording the previous end values, and updates the
end scalars (both from the tile on the first play, only the left one
afterwards).  The source builds a fresh object by spreading `board`. -/
def placeLeft (board : Board) (playInfo : PlayInfo) : Board :=
  let newTile := playInfo.tile
  let newBoard : Board :=
    { board with
      tiles := newTile :: board.tiles,
      history := board.history ++
        [{ action := "place", side := Side.left, tile := newTile,
           prevLeftValue := board.leftValue, prevRightValue := board.rightValue }] }
  if board.leftValue = none ∧ board.rightValue = none then
    { newBoard with leftValue := some newTile.a, rightValue := some newTile.b }
  else
    { newBoard with leftValue := some newTile.a }

/-- Embeds `placeRight(board, playInfo)`: appends the tile and updates the
right end scalar. -/
def placeRight (board : Board) (playInfo : PlayInfo) : Board :=
  let newTile := playInfo.tile
  let newBoard : Board :=
    { board with
      tiles := board.tiles ++ [newTile],
      history := board.history ++
        [{ action := "place", side := Side.right, tile := newTile,
           prevLeftValue := board.leftValue, prevRightValue := board.rightValue }] }
  if board.leftValue = none ∧ board.rightValue = none then
    { newBoard with leftValue := some newTile.a, rightValue := some newTile.b }
  else
    { newBoard with rightValue := some newTile.b }

/-- One element of the array built by `getPlayableTiles` of
`src/js/board.js`: the hand tile, the `playInfo` of the first valid side
found, and the accumulated list of legal sides. -/
structure PlayableEntry where
  tile : Tile
  playInfo : PlayInfo
  sides : List Side
deriving DecidableEq, Repr

/-- `existing.sides.push("right")` applied to the first entry whose tile id
matches (the source's `playable.find(p => p.tile.id === tile.id)`). -/
def pushRightOnFirst (tid : String) : List PlayableEntry → List PlayableEntry
  | [] => []
  | p :: r =>
    if p.tile.id == tid then { p with sides := p.sides ++ [Side.right] } :: r
    else p :: pushRightOnFirst tid r

/-- The body of the `hand.forEach` loop of `getPlayableTiles`: push an entry
for a valid left play; for a valid right play either push `'right'` onto the
already present entry of the same tile id or push a fresh entry. -/
def playableStep (board : Board) (acc : List PlayableEntry) (tile : Tile) :
    List PlayableEntry :=
  let acc1 :=
    match canPlayLeft board tile with
    | some leftPlay => acc ++ [{ tile := tile, playInfo := leftPlay, sides := [Side.left] }]
    | none => acc
  match canPlayRight board tile with
  | some rightPlay =>
    if acc1.any (fun p => p.tile.id == tile.id) then pushRightOnFirst tile.id acc1
    else acc1 ++ [{ tile := tile, playInfo := rightPlay, sides := [Side.right] }]
  | none => acc1

/-- Embeds `getPlayableTiles(board, hand)` of `src/js/board.js`. -/
def getPlayableTiles (board : Board) (hand : List Tile) : List PlayableEntry :=
  hand.foldl (playableStep board) []

/-- The simulated left end value after a move, as computed inline both in
`countPlayableTilesAfterMove` and in `minimaxEvaluate`:
`side === 'left' ? (tile.a === board.leftValue ? tile.b : tile.a) : board.leftValue`. -/
def newLeftValueAfter (board : Board) (tile : Tile) (side : Side) : Option Nat :=
  match side with
  | Side.left => some (if some tile.a = board.leftValue then tile.b else tile.a)
  | Side.right => board.leftValue

/-- The simulated right end value after a move, analogous to
`newLeftValueAfter`. -/
def newRightValueAfter (board : Board) (tile : Tile) (side : Side) : Option Nat :=
  match side with
  | Side.right => some (if some tile.a = board.rightValue then tile.b else tile.a)
  | Side.left => board.rightValue

/-- Embeds `countPlayableTilesAfterMove(board, hand, tile, side)`. -/
def countPlayableTilesAfterMove (board : Board) (hand : List Tile) (tile : Tile)
    (side : Side) : Nat :=
  let newLeftValue := newLeftValueAfter board tile side
  let newRightValue := newRightValueAfter board tile side
  (hand.filter (fun t =>
    some t.a = newLeftValue ∨ some t.b = newLeftValue ∨
    some t.a = newRightValue ∨ some t.b = newRightValue)).length

/-- Embeds `evaluateMoveHeuristic(board, hand, tile, side)` of `src/js/ai.js`.
The value-shedding term divides by 12, so scores are rational. -/
def evaluateMoveHeuristic (board : Board) (hand : List Tile) (tile : Tile)
    (side : Side) : ℚ :=
  let score1 : ℚ := if tile.a == tile.b then 25 else 0
  let tileValue : ℚ := (tile.a : ℚ) + (tile.b : ℚ)
  let score2 := score1 + tileValue / 12 * 20
  let endValue : Option Nat :=
    match side with
    | Side.left => board.leftValue
    | Side.right => board.rightValue
  let matchingValue : Nat := if some tile.a = endValue then tile.b else tile.a
  let flexibilityCount := (hand.filter (fun t =>
    t.id != tile.id && (t.a == matchingValue || t.b == matchingValue))).length
  let score3 := score2 + (flexibilityCount : ℚ) * 5
  let uniqueCount := (hand.filter (fun t =>
    t.a == matchingValue || t.b == matchingValue)).length
  let score4 := if uniqueCount = 1 then score3 - 10 else score3
  let remainingHand := hand.filter (fun t => t.id != tile.id)
  let futurePlayable := countPlayableTilesAfterMove board remainingHand tile side
  score4 + (futurePlayable : ℚ) * 5

/-- `fp.sides[0]`; the enumerator only ever builds entries with a non-empty
`sides` list, so the default is never read from enumerator output. -/
def sides0 (e : PlayableEntry) : Side :=
  e.sides.headD Side.left

/-- The final clause of `minimaxEvaluate`:
`if (hand.length === 1 && hand[0].id === tile.id) score += 100`. -/
def winBonus (hand : List Tile) (tile : Tile) : ℚ :=
  match hand with
  | [t0] => if t0.id == tile.id then 100 else 0
  | _ => 0

/-- `Math.max(...list)` for the non-empty lists it is applied to (the source
guards with `futurePlayable.length > 0`). -/
def maxListQ : List ℚ → ℚ
  | [] => 0
  | x :: r => r.foldl max x

/-- Embeds `minimaxEvaluate(board, hand, tile, side, depth)` of
`src/js/ai.js`: heuristic base score, plus (at positive depth) a mobility
bonus of 3 per future playable entry and — at depth above 1 — half of the
best recursive score of the first three future entries, or a flat −20 when no
future play remains; finally the win bonus for a hand-emptying move. -/
def minimaxEvaluate : Board → List Tile → Tile → Side → Nat → ℚ
  | board, hand, tile, side, 0 =>
    evaluateMoveHeuristic board hand tile side + winBonus hand tile
  | board, hand, tile, side, d + 1 =>
    let score0 := evaluateMoveHeuristic board hand tile side
    let remainingHand := hand.filter (fun t => t.id != tile.id)
    let simulatedBoard :=
      { board with
        leftValue := newLeftValueAfter board tile side,
        rightValue := newRightValueAfter board tile side }
    let futurePlayable := getPlayableTiles simulatedBoard remainingHand
    let score1 :=
      if futurePlayable.length > 0 then
        let scoreA := score0 + (futurePlayable.length : ℚ) * 3
        if d > 0 then
          let futureBestScore := maxListQ ((futurePlayable.take 3).map (fun fp =>
            minimaxEvaluate simulatedBoard remainingHand fp.tile (sides0 fp) d))
          scoreA + futureBestScore * (1 / 2)
        else scoreA
      else score0 - 20
    score1 + winBonus hand tile

/-- Embeds `selectEasyMove(playableTiles)`: a uniformly random entry, then a
uniformly random side of that entry.  `r` and `s` select the indices actually
drawn (`Math.floor(Math.random() * length)` ranges over `0..length-1`, and
`r % length` reaches exactly those indices).  On an empty array the source
would fault reading `selected.positions`; it is only ever invoked with a
non-empty array, and the embedding returns `none` there. -/
def selectEasyMove (r s : Nat) (playableTiles : List PlayableEntry) :
    Option (Tile × Side) :=
  match playableTiles with
  | [] => none
  | p :: rest =>
    let selected := (p :: rest).get ⟨r % (p :: rest).length, Nat.mod_lt _ (Nat.succ_pos _)⟩
    match selected.sides with
    | [] => none
    | s0 :: srest =>
      some (selected.tile,
        (s0 :: srest).get ⟨s % (s0 :: srest).length, Nat.mod_lt _ (Nat.succ_pos _)⟩)

/-- The `(tile, side)` pairs visited by the nested
`playableTiles.forEach(({tile, sides}) => sides.forEach(side => ...))` loops
of `selectMediumMove`/`selectHardMove`, in enumeration order. -/
def moveCandidates (playableTiles : List PlayableEntry) : List (Tile × Side) :=
  playableTiles.flatMap (fun p => p.sides.map (fun side => (p.tile, side)))

/-- Embeds `selectMediumMove(board, hand, playableTiles)`: evaluate every
candidate once with the heuristic, keep the strictly best, and fall back to
`selectEasyMove` only when no candidate was scored. -/
def selectMediumMove (r s : Nat) (board : Board) (hand : List Tile)
    (playableTiles : List PlayableEntry) : Option (Tile × Side) :=
  match bestLoop (fun c => evaluateMoveHeuristic board hand c.1 c.2)
      (moveCandidates playableTiles) none with
  | some (m, _) => some m
  | none => selectEasyMove r s playableTiles

/-- Embeds `selectHardMove(board, hand, playableTiles)`: score every
candidate with `minimaxEvaluate` at depth 2, keep the strictly best, and fall
back to `selectMediumMove` only when no candidate was scored. -/
def selectHardMove (r s : Nat) (board : Board) (hand : List Tile)
    (playableTiles : List PlayableEntry) : Option (Tile × Side) :=
  match bestLoop (fun c => minimaxEvaluate board hand c.1 c.2 2)
      (moveCandidates playableTiles) none with
  | some (m, _) => some m
  | none => selectMediumMove r s board hand playableTiles

/-- The module-local `let currentDifficulty = 'medium'` of `src/js/ai.js`. -/
def initialDifficulty : String := "medium"

/-- Embeds `setAIDifficulty(difficulty)` in state-passing style: the stored
difficulty is overwritten only when the argument is one of the three valid
strings, otherwise the call falls through and the state is kept. -/
def setAIDifficulty (difficulty : String) (current : String) : String :=
  if ["easy", "medium", "hard"].contains difficulty then difficulty else current

/-- Embeds `getAIDifficulty()`: returns the stored difficulty. -/
def getAIDifficulty (current : String) : String := current

/-- Embeds `selectBestMove(board, hand)` with the stored difficulty passed
explicitly (the `switch` defaults to the medium selector on any other
string). -/
def selectBestMove (r s : Nat) (difficulty : String) (board : Board)
    (hand : List Tile) : Option (Tile × Side) :=
  let playableTiles := getPlayableTiles board hand
  if playableTiles.length = 0 then none
  else if difficulty == "easy" then selectEasyMove r s playableTiles
  else if difficulty == "medium" then selectMediumMove r s board hand playableTiles
  else if difficulty == "hard" then selectHardMove r s board hand playableTiles
  else selectMediumMove r s board hand playableTiles

end ModuleJS

/-! ## Board invariants and reachability -/

namespace ScriptJS

/-- Adjacent placed tiles touch (`script.js` orientation): each tile's
`right` value equals the next tile's `left` value. -/
def chainOkJS : List Tile → Bool
  | [] => true
  | [_] => true
  | x :: y :: r => x.right == y.left && chainOkJS (y :: r)

/-- The board invariant for the `script.js` variant: the chain of placed
tiles is linked, the left end scalar is the first tile's outward (`left`)
value and the right end scalar is the last tile's outward (`right`) value —
in particular both are `null` exactly on the empty board. -/
def InvJS (b : Board) : Prop :=
  chainOkJS b.tiles = true ∧
  b.leftEnd = b.tiles.head?.map Tile.left ∧
  b.rightEnd = b.tiles.getLast?.map Tile.right

/-- The boards reachable from a fresh `Board` through `addTile` (which
validates internally and reports acceptance in its boolean result). -/
inductive ReachableJS : Board → Prop where
  | init : ReachableJS Board.init
  | step {b : Board} {t : Tile} {pos : Side} :
      ReachableJS b → (b.addTile t pos).1 = true → ReachableJS (b.addTile t pos).2

end ScriptJS

namespace ModuleJS

/-- Adjacent placed tiles touch (module-variant orientation): each tile's `b`
value equals the next tile's `a` value. -/
def chainOkM : List Tile → Bool
  | [] => true
  | [_] => true
  | x :: y :: r => x.b == y.a && chainOkM (y :: r)

/-- The board invariant for the module variant: linked chain, left end equal
to the first tile's `a`, right end equal to the last tile's `b`, both `null`
exactly on the empty board. -/
def InvM (b : Board) : Prop :=
  chainOkM b.tiles = true ∧
  b.leftValue = b.tiles.head?.map Tile.a ∧
  b.rightValue = b.tiles.getLast?.map Tile.b

/-- The boards reachable from `initBoard` by validated placements: a
`placeLeft` fed by a successful `canPlayLeft`, or a `placeRight` fed by a
successful `canPlayRight`. -/
inductive ReachableM : Board → Prop where
  | init : ReachableM initBoard
  | stepLeft {b : Board} {t : Tile} {pi : PlayInfo} :
      ReachableM b → canPlayLeft b t = some pi → ReachableM (placeLeft b pi)
  | stepRight {b : Board} {t : Tile} {pi : PlayInfo} :
      ReachableM b → canPlayRight b t = some pi → ReachableM (placeRight b pi)

end ModuleJS

/-! ## Derived definitions and concrete instances -/

namespace ScriptJS

/-- The 28 tiles dealt by `startNewGame` (`for i in 0..6, for j in i..6`,
with sequentially increasing ids). -/
def newGameTiles : List Tile :=
  (((List.range 7).flatMap (fun i => ((List.range 7).drop i).map (fun j => (i, j)))).enum).map
    (fun p => { left := p.2.1, right := p.2.2, id := p.1 })

end ScriptJS

namespace ModuleJS

/-- The entry a board-empty `getPlayableTiles` produces for a tile `t`. -/
def emptyBoardEntry (t : Tile) : PlayableEntry :=
  { tile := t, playInfo := { tile := t, side := Side.left, needsRotate := false },
    sides := [Side.left, Side.right] }

/-- The simulated board built inline by `minimaxEvaluate` (spread of the
board with the two new end values). -/
def simulatedBoardAfter (b : Board) (t : Tile) (side : Side) : Board :=
  { b with leftValue := newLeftValueAfter b t side,
           rightValue := newRightValueAfter b t side }

/-- `hand.filter(t => t.id !== tile.id)` — the hand after the candidate is
removed. -/
def remainingHandAfter (hand : List Tile) (t : Tile) : List Tile :=
  hand.filter (fun x => x.id != t.id)

end ModuleJS

/-! ## Concrete instances used by witnesses and counterexamples -/

/-- The tile `[2|5]` of the `script.js` variant. -/
def s25JS : ScriptJS.Tile := { left := 2, right := 5, id := 0 }

/-- The tile `[3|4]` of the `script.js` variant. -/
def s34JS : ScriptJS.Tile := { left := 3, right := 4, id := 1 }

/-- The tile `[5|6]` of the `script.js` variant. -/
def s56JS : ScriptJS.Tile := { left := 5, right := 6, id := 2 }

/-- The board holding the single tile `[2|5]` (open ends 2 and 5), as
produced by a first `addTile`. -/
def b25JS : ScriptJS.Board := { tiles := [s25JS], leftEnd := some 2, rightEnd := some 5 }

/-- A draw pile of six tiles (only its length matters to `hardMove`). -/
def pool6JS : List ScriptJS.Tile :=
  [{ left := 0, right := 0, id := 10 }, { left := 0, right := 1, id := 11 },
   { left := 0, right := 2, id := 12 }, { left := 0, right := 3, id := 13 },
   { left := 0, right := 4, id := 14 }, { left := 0, right := 5, id := 15 }]

/-- The tile `2-3` of the module variant. -/
def t23M : ModuleJS.Tile :=
  { a := 2, b := 3, id := "2-3", isDouble := false, orientation := "horizontal" }

/-- The tile `2-5` of the module variant. -/
def t25M : ModuleJS.Tile :=
  { a := 2, b := 5, id := "2-5", isDouble := false, orientation := "horizontal" }

/-- The tile `3-4` of the module variant. -/
def t34M : ModuleJS.Tile :=
  { a := 3, b := 4, id := "3-4", isDouble := false, orientation := "horizontal" }

/-- The tile `4-5` of the module variant. -/
def t45M : ModuleJS.Tile :=
  { a := 4, b := 5, id := "4-5", isDouble := false, orientation := "horizontal" }

/-- The module-variant board holding the single tile `2-3` (open ends 2 and
3), reached by one validated `placeLeft` from `initBoard`. -/
def b23M : ModuleJS.Board :=
  ModuleJS.placeLeft ModuleJS.initBoard
    { tile := t23M, side := Side.left, needsRotate := false }

/-- The simulated board `minimaxEvaluate` builds when `3-4` is played on the
right of `b23M` (left end stays 2, right end becomes 4). -/
def simB23M : ModuleJS.Board := ModuleJS.simulatedBoardAfter b23M t34M Side.right

/-- The play info `canPlayLeft` returns for `2-5` against left end 2: the
rotated copy of the tile. -/
def pi25M : ModuleJS.PlayInfo :=
  { tile := ModuleJS.rotateTile t25M, side := Side.left, needsRotate := true }

/-! ## Helper lemmas: chains and placement -/

namespace ScriptJS

theorem clone_eq (t : Tile) : t.clone = t := rfl

theorem chainOkJS_cons_cons (x y : Tile) (l : List Tile) :
    chainOkJS (x :: y :: l) = (x.right == y.left && chainOkJS (y :: l)) := rfl

theorem chainOkJS_append_singleton (l : List Tile) (x : Tile)
    (hc : chainOkJS l = true)
    (hlast : ∀ y, l.getLast? = some y → y.right = x.left) :
    chainOkJS (l ++ [x]) = true := by
  induction l with
  | nil => simp [chainOkJS]
  | cons a r ih =>
    cases r with
    | nil =>
      have ha := hlast a (by simp)
      simp [chainOkJS, ha]
    | cons b r' =>
      rw [chainOkJS_cons_cons, Bool.and_eq_true] at hc
      rw [List.cons_append, List.cons_append, chainOkJS_cons_cons, ← List.cons_append,
        Bool.and_eq_true]
      exact ⟨hc.1, ih hc.2 (fun y hy => hlast y (by rw [List.getLast?_cons_cons]; exact hy))⟩

/-- `Board.addTile` preserves the board invariant (in both the accepting and
the rejecting case). -/
theorem addTile_preserves_inv (b : Board) (t : Tile) (pos : Side) (h : InvJS b) :
    InvJS (b.addTile t pos).2 := by
  obtain ⟨hc, hl, hr⟩ := h
  unfold Board.addTile
  by_cases hemp : b.tiles.length = 0
  · have htn : b.tiles = [] := List.length_eq_zero.mp hemp
    simp only [Board.isEmpty, htn, clone_eq]
    refine ⟨?_, ?_, ?_⟩ <;> simp [htn, chainOkJS, InvJS]
  · have hne : b.tiles ≠ [] := fun hh => hemp (by simp [hh])
    obtain ⟨h₀, rest, htiles⟩ := List.exists_cons_of_ne_nil hne
    have hiso : b.isEmpty = false := by
      simp [Board.isEmpty, htiles]
    simp only [hiso, Bool.false_eq_true, if_false, clone_eq]
    cases pos with
    | left =>
      by_cases h1 : some t.right = b.leftEnd
      · have ht : t.right = h₀.left := by
          rw [hl, htiles] at h1; simpa using h1
        rw [if_pos h1]
        refine ⟨?_, ?_, ?_⟩
        · rw [htiles, chainOkJS_cons_cons, Bool.and_eq_true]
          exact ⟨by simp [ht], by rw [htiles] at hc; exact hc⟩
        · simp
        · rw [htiles] at hr ⊢
          simpa [List.getLast?_cons_cons] using hr
      · simp only [if_neg h1]
        by_cases h2 : some t.left = b.leftEnd
        · have ht : t.left = h₀.left := by
            rw [hl, htiles] at h2; simpa using h2
          simp only [if_pos h2]
          refine ⟨?_, ?_, ?_⟩
          · rw [htiles, chainOkJS_cons_cons, Bool.and_eq_true]
            refine ⟨by simp [Tile.flip, ht], by rw [htiles] at hc; exact hc⟩
          · simp [Tile.flip]
          · rw [htiles] at hr ⊢
            simpa [List.getLast?_cons_cons] using hr
        · simp only [if_neg h2]
          exact ⟨hc, hl, hr⟩
    | right =>
      by_cases h1 : some t.left = b.rightEnd
      · have hlast : ∀ y, b.tiles.getLast? = some y → y.right = t.left := by
          intro y hy
          rw [hr] at h1
          rw [hy] at h1
          simpa using h1.symm
        rw [if_pos h1]
        refine ⟨?_, ?_, ?_⟩
        · exact chainOkJS_append_singleton _ _ hc hlast
        · rw [htiles] at hl ⊢
          simpa using hl
        · simp [List.getLast?_concat]
      · simp only [if_neg h1]
        by_cases h2 : some t.right = b.rightEnd
        · have hlast : ∀ y, b.tiles.getLast? = some y → y.right = t.flip.left := by
            intro y hy
            rw [hr] at h2
            rw [hy] at h2
            simp [Tile.flip]
            simpa using h2.symm
          simp only [if_pos h2]
          refine ⟨?_, ?_, ?_⟩
          · exact chainOkJS_append_singleton _ _ hc hlast
          · rw [htiles] at hl ⊢
            simpa using hl
          · simp [List.getLast?_concat, Tile.flip]
        · simp only [if_neg h2]
          exact ⟨hc, hl, hr⟩

/-- Every reachable `script.js` board satisfies the invariant. -/
theorem reachableJS_inv (b : Board) (h : ReachableJS b) : InvJS b := by
  induction h with
  | init => exact ⟨rfl, rfl, rfl⟩
  | step hb _ ih => exact addTile_preserves_inv _ _ _ ih

end ScriptJS

namespace ModuleJS

theorem chainOkM_cons_cons (x y : Tile) (l : List Tile) :
    chainOkM (x :: y :: l) = (x.b == y.a && chainOkM (y :: l)) := rfl

theorem chainOkM_append_singleton (l : List Tile) (x : Tile)
    (hc : chainOkM l = true)
    (hlast : ∀ y, l.getLast? = some y → y.b = x.a) :
    chainOkM (l ++ [x]) = true := by
  induction l with
  | nil => simp [chainOkM]
  | cons a r ih =>
    cases r with
    | nil =>
      have ha := hlast a (by simp)
      simp [chainOkM, ha]
    | cons b r' =>
      rw [chainOkM_cons_cons, Bool.and_eq_true] at hc
      rw [List.cons_append, List.cons_append, chainOkM_cons_cons, ← List.cons_append,
        Bool.and_eq_true]
      exact ⟨hc.1, ih hc.2 (fun y hy => hlast y (by rw [List.getLast?_cons_cons]; exact hy))⟩

/-- On a board satisfying the invariant, `placeLeft` fed by a successful
`canPlayLeft` preserves the invariant. -/
theorem placeLeft_preserves_inv (b : Board) (t : Tile) (pi : PlayInfo)
    (h : InvM b) (hcan : canPlayLeft b t = some pi) : InvM (placeLeft b pi) := by
  obtain ⟨hc, hl, hr⟩ := h
  unfold canPlayLeft at hcan
  by_cases hboth : b.leftValue = none ∧ b.rightValue = none
  · rw [if_pos hboth] at hcan
    have hpi : pi = { tile := t, side := Side.left, needsRotate := false } :=
      (Option.some_injective _ hcan).symm
    have htn : b.tiles = [] := by
      rcases hl' : b.tiles with _ | ⟨h₀, rest⟩
      · rfl
      · rw [hl', List.head?_cons] at hl
        rw [hboth.1] at hl
        simp at hl
    unfold placeLeft
    rw [if_pos hboth, hpi]
    exact ⟨by simp [htn, chainOkM], by simp [htn], by simp [htn]⟩
  · rw [if_neg hboth] at hcan
    have hne : b.tiles ≠ [] := by
      intro hh
      exact hboth ⟨by simp [hl, hh], by simp [hr, hh]⟩
    obtain ⟨h₀, rest, htiles⟩ := List.exists_cons_of_ne_nil hne
    have hlv : b.leftValue = some h₀.a := by simp [hl, htiles]
    have hb : pi.tile.b = h₀.a := by
      by_cases h1 : some t.b = b.leftValue
      · rw [if_pos h1] at hcan
        obtain rfl := Option.some_injective _ hcan
        rw [hlv] at h1
        simpa using h1
      · rw [if_neg h1] at hcan
        by_cases h2 : some t.a = b.leftValue
        · rw [if_pos h2] at hcan
          obtain rfl := Option.some_injective _ hcan
          rw [hlv] at h2
          simpa [rotateTile] using h2
        · rw [if_neg h2] at hcan
          exact absurd hcan (by simp)
    simp only [placeLeft, if_neg hboth]
    refine ⟨?_, ?_, ?_⟩
    · rw [htiles, chainOkM_cons_cons, Bool.and_eq_true]
      exact ⟨by simp [hb], by rw [htiles] at hc; exact hc⟩
    · simp
    · rw [htiles] at hr ⊢
      simpa [List.getLast?_cons_cons] using hr

/-- On a board satisfying the invariant, `placeRight` fed by a successful
`canPlayRight` preserves the invariant. -/
theorem placeRight_preserves_inv (b : Board) (t : Tile) (pi : PlayInfo)
    (h : InvM b) (hcan : canPlayRight b t = some pi) : InvM (placeRight b pi) := by
  obtain ⟨hc, hl, hr⟩ := h
  unfold canPlayRight at hcan
  by_cases hboth : b.leftValue = none ∧ b.rightValue = none
  · rw [if_pos hboth] at hcan
    have hpi : pi = { tile := t, side := Side.right, needsRotate := false } :=
      (Option.some_injective _ hcan).symm
    have htn : b.tiles = [] := by
      rcases hl' : b.tiles with _ | ⟨h₀, rest⟩
      · rfl
      · rw [hl', List.head?_cons] at hl
        rw [hboth.1] at hl
        simp at hl
    simp only [placeRight, if_pos hboth, hpi]
    exact ⟨by simp [htn, chainOkM], by simp [htn], by simp [htn]⟩
  · rw [if_neg hboth] at hcan
    have hne : b.tiles ≠ [] := by
      intro hh
      exact hboth ⟨by simp [hl, hh], by simp [hr, hh]⟩
    have hrv : b.rightValue = some (b.tiles.getLast hne).b := by
      rw [hr, List.getLast?_eq_getLast _ hne]
      rfl
    have ha : pi.tile.a = (b.tiles.getLast hne).b := by
      by_cases h1 : some t.a = b.rightValue
      · rw [if_pos h1] at hcan
        obtain rfl := Option.some_injective _ hcan
        rw [hrv] at h1
        simpa using h1
      · rw [if_neg h1] at hcan
        by_cases h2 : some t.b = b.rightValue
        · rw [if_pos h2] at hcan
          obtain rfl := Option.some_injective _ hcan
          rw [hrv] at h2
          simpa [rotateTile] using h2
        · rw [if_neg h2] at hcan
          exact absurd hcan (by simp)
    simp only [placeRight, if_neg hboth]
    refine ⟨?_, ?_, ?_⟩
    · refine chainOkM_append_singleton _ _ hc ?_
      intro y hy
      rw [List.getLast?_eq_getLast _ hne] at hy
      rw [ha]
      rw [Option.some_injective _ hy]
    · obtain ⟨h₀, rest, htiles⟩ := List.exists_cons_of_ne_nil hne
      rw [htiles] at hl ⊢
      simpa using hl
    · simp [List.getLast?_concat]

/-- Every reachable module-variant board satisfies the invariant. -/
theorem reachableM_inv (b : Board) (h : ReachableM b) : InvM b := by
  induction h with
  | init => exact ⟨rfl, rfl, rfl⟩
  | stepLeft hb hcan ih => exact placeLeft_preserves_inv _ _ _ ih hcan
  | stepRight hb hcan ih => exact placeRight_preserves_inv _ _ _ ih hcan

end ModuleJS

/-! ## Helper lemmas: the strictly-better accumulator loop -/

theorem bestLoop_acc_some {α β : Type} [LinearOrder β] (f : α → β) (l : List α)
    (m0 : α) (s0 : β) : ∃ m s, bestLoop f l (some (m0, s0)) = some (m, s) := by
  induction l generalizing m0 s0 with
  | nil => exact ⟨m0, s0, rfl⟩
  | cons x r ih =>
    by_cases h : s0 < f x
    · simpa [bestLoop, h] using ih x (f x)
    · simpa [bestLoop, h] using ih m0 s0

theorem bestLoop_acc_spec {α β : Type} [LinearOrder β] (f : α → β) (l : List α)
    (m0 m : α) (s : β) (hres : bestLoop f l (some (m0, f m0)) = some (m, s)) :
    s = f m ∧
      ((m = m0 ∧ ∀ c ∈ l, f c ≤ f m0) ∨
        (∃ pre post, l = pre ++ m :: post ∧ f m0 < f m ∧
          (∀ c ∈ pre, f c < f m) ∧ (∀ c ∈ post, f c ≤ f m))) := by
  induction l generalizing m0 with
  | nil =>
    simp only [bestLoop, Option.some.injEq, Prod.mk.injEq] at hres
    obtain ⟨rfl, rfl⟩ := hres
    exact ⟨rfl, Or.inl ⟨rfl, by simp⟩⟩
  | cons x r ih =>
    by_cases h : f m0 < f x
    · rw [show bestLoop f (x :: r) (some (m0, f m0)) = bestLoop f r (some (x, f x)) by
        simp [bestLoop, h]] at hres
      obtain ⟨hs, hcase⟩ := ih x hres
      refine ⟨hs, Or.inr ?_⟩
      rcases hcase with ⟨rfl, hle⟩ | ⟨pre, post, rfl, hlt, hpre, hpost⟩
      · exact ⟨[], r, rfl, h, by simp, hle⟩
      · refine ⟨x :: pre, post, rfl, lt_trans h hlt, ?_, hpost⟩
        intro c hc
        rcases List.mem_cons.mp hc with rfl | hc
        · exact hlt
        · exact hpre c hc
    · rw [show bestLoop f (x :: r) (some (m0, f m0)) = bestLoop f r (some (m0, f m0)) by
        simp [bestLoop, h]] at hres
      obtain ⟨hs, hcase⟩ := ih m0 hres
      refine ⟨hs, ?_⟩
      rcases hcase with ⟨rfl, hle⟩ | ⟨pre, post, heq, hlt, hpre, hpost⟩
      · refine Or.inl ⟨rfl, ?_⟩
        intro c hc
        rcases List.mem_cons.mp hc with rfl | hc
        · exact le_of_not_lt h
        · exact hle c hc
      · refine Or.inr ⟨x :: pre, post, by rw [heq, List.cons_append], hlt, ?_, hpost⟩
        intro c hc
        rcases List.mem_cons.mp hc with rfl | hc
        · exact lt_of_le_of_lt (le_of_not_lt h) hlt
        · exact hpre c hc

/-- Characterisation of the accumulator loop started from `-Infinity`: it
returns the first candidate attaining the maximum score — every earlier
candidate scores strictly less, every later one at most as much. -/
theorem bestLoop_none_spec {α β : Type} [LinearOrder β] (f : α → β) (l : List α)
    (m : α) (s : β) (hres : bestLoop f l none = some (m, s)) :
    s = f m ∧ ∃ pre post, l = pre ++ m :: post ∧
      (∀ c ∈ pre, f c < f m) ∧ (∀ c ∈ post, f c ≤ f m) := by
  cases l with
  | nil => simp [bestLoop] at hres
  | cons x r =>
    rw [show bestLoop f (x :: r) none = bestLoop f r (some (x, f x)) from rfl] at hres
    obtain ⟨hs, hcase⟩ := bestLoop_acc_spec f r x m s hres
    refine ⟨hs, ?_⟩
    rcases hcase with ⟨rfl, hle⟩ | ⟨pre, post, rfl, hlt, hpre, hpost⟩
    · exact ⟨[], r, rfl, by simp, hle⟩
    · refine ⟨x :: pre, post, rfl, ?_, hpost⟩
      intro c hc
      rcases List.mem_cons.mp hc with rfl | hc
      · exact hlt
      · exact hpre c hc

theorem bestLoop_none_some {α β : Type} [LinearOrder β] (f : α → β) (l : List α)
    (hl : l ≠ []) : ∃ m s, bestLoop f l none = some (m, s) := by
  cases l with
  | nil => exact absurd rfl hl
  | cons x r => exact bestLoop_acc_some f r x (f x)

theorem bestLoop_max_of_decomp {α β : Type} [LinearOrder β] (f : α → β)
    {l pre post : List α} {m : α} (heq : l = pre ++ m :: post)
    (hpre : ∀ c ∈ pre, f c < f m) (hpost : ∀ c ∈ post, f c ≤ f m) :
    ∀ c ∈ l, f c ≤ f m := by
  intro c hc
  rw [heq] at hc
  rcases List.mem_append.mp hc with hc | hc
  · exact le_of_lt (hpre c hc)
  · rcases List.mem_cons.mp hc with rfl | hc
    · exact le_refl _
    · exact hpost c hc

/-! ## Helper lemmas: enumerators and the hard loop of `script.js` -/

namespace ScriptJS

theorem mem_candidates (pl : List Playable) (t : Tile) (pos : Side) :
    (t, pos) ∈ candidates pl ↔ ∃ e ∈ pl, e.tile = t ∧ pos ∈ e.positions := by
  simp only [candidates, List.mem_flatMap, List.mem_map, Prod.mk.injEq]
  constructor
  · rintro ⟨e, he, p, hp, rfl, rfl⟩
    exact ⟨e, he, rfl, hp⟩
  · rintro ⟨e, he, rfl, hp⟩
    exact ⟨e, he, pos, hp, rfl, rfl⟩

/-- Every entry produced by `Player.getPlayableTiles` carries a tile of the
hand and a non-empty list of positions. -/
theorem mem_getPlayableTiles_props (hand : List Tile) (board : Board)
    (e : Playable) (he : e ∈ getPlayableTiles hand board) :
    e.tile ∈ hand ∧ e.positions ≠ [] := by
  unfold getPlayableTiles at he
  by_cases hemp : board.isEmpty
  · rw [if_pos hemp] at he
    obtain ⟨t, ht, rfl⟩ := List.mem_map.mp he
    exact ⟨ht, by simp⟩
  · rw [if_neg hemp] at he
    obtain ⟨t, ht, hf⟩ := List.mem_filterMap.mp he
    by_cases hp : (((if t.matchesEnd board.getEnds.1 then [Side.left] else []) ++
        (if t.matchesEnd board.getEnds.2 then [Side.right] else []))).isEmpty
    · rw [if_pos hp] at hf
      exact absurd hf (by simp)
    · rw [if_neg hp] at hf
      obtain rfl := Option.some_injective _ hf
      exact ⟨ht, by simpa using hp⟩

theorem candidates_ne_nil (pl : List Playable) (hne : pl ≠ [])
    (hpos : ∀ e ∈ pl, e.positions ≠ []) : candidates pl ≠ [] := by
  obtain ⟨e, rest, rfl⟩ := List.exists_cons_of_ne_nil hne
  obtain ⟨p, prest, hp⟩ := List.exists_cons_of_ne_nil (hpos e (by simp))
  have : (e.tile, p) ∈ candidates (e :: rest) := by
    rw [mem_candidates]
    exact ⟨e, by simp, rfl, by rw [hp]; simp⟩
  exact List.ne_nil_of_mem this

theorem hardLoop_acc_some (o : Nat → Bool) (hand : List Tile) (board : Board)
    (depth : Nat) (l : List (Tile × Side)) :
    ∀ (k : Nat) (m0 : Tile × Side) (s0 : Int),
      ∃ m, hardLoop o hand board depth k l (some (m0, s0)) = some m := by
  induction l with
  | nil => exact fun k m0 s0 => ⟨m0, rfl⟩
  | cons c r ih =>
    intro k m0 s0
    by_cases hk : o k
    · exact ⟨m0, by simp [hardLoop, hk]⟩
    · by_cases hs : s0 < minimaxReachable (o (k + 1)) c.1 c.2 hand board depth
      · obtain ⟨m, hm⟩ := ih (k + 2) c (minimaxReachable (o (k + 1)) c.1 c.2 hand board depth)
        exact ⟨m, by simp only [hardLoop, hk, Bool.false_eq_true, if_false, if_pos hs]; exact hm⟩
      · obtain ⟨m, hm⟩ := ih (k + 2) m0 s0
        exact ⟨m, by simp only [hardLoop, hk, Bool.false_eq_true, if_false, if_neg hs]; exact hm⟩

theorem hardLoop_none_some (o : Nat → Bool) (hand : List Tile) (board : Board)
    (depth : Nat) (l : List (Tile × Side)) (hl : l ≠ []) (k : Nat) :
    ∃ m, hardLoop o hand board depth k l none = some m := by
  obtain ⟨c, r, rfl⟩ := List.exists_cons_of_ne_nil hl
  by_cases hk : o k
  · exact ⟨c, by simp [hardLoop, hk]⟩
  · obtain ⟨m, hm⟩ :=
      hardLoop_acc_some o hand board depth r (k + 2) c
        (minimaxReachable (o (k + 1)) c.1 c.2 hand board depth)
    exact ⟨m, by simp only [hardLoop, hk, Bool.false_eq_true, if_false]; exact hm⟩

theorem hardLoop_mem (o : Nat → Bool) (hand : List Tile) (board : Board)
    (depth : Nat) (l : List (Tile × Side)) :
    ∀ (k : Nat) (acc : Option ((Tile × Side) × Int)) (m : Tile × Side),
      hardLoop o hand board depth k l acc = some m →
      (∃ s, acc = some (m, s)) ∨ m ∈ l := by
  induction l with
  | nil =>
    intro k acc m hres
    rcases acc with _ | ⟨m0, s0⟩
    · simp [hardLoop] at hres
    · simp only [hardLoop, Option.map_some', Option.some.injEq] at hres
      exact Or.inl ⟨s0, by rw [hres]⟩
  | cons c r ih =>
    intro k acc m hres
    by_cases hk : o k
    · rcases acc with _ | ⟨m0, s0⟩
      · simp only [hardLoop, hk, if_true, Option.some.injEq] at hres
        exact Or.inr (by rw [← hres]; simp)
      · simp only [hardLoop, hk, if_true, Option.some.injEq] at hres
        exact Or.inl ⟨s0, by rw [hres]⟩
    · rcases acc with _ | ⟨m0, s0⟩
      · simp only [hardLoop, hk, Bool.false_eq_true, if_false] at hres
        rcases ih (k + 2) _ m hres with ⟨s, hs⟩ | hm
        · simp only [Option.some.injEq, Prod.mk.injEq] at hs
          exact Or.inr (by rw [← hs.1]; simp)
        · exact Or.inr (List.mem_cons_of_mem _ hm)
      · simp only [hardLoop, hk, Bool.false_eq_true, if_false] at hres
        by_cases hs : s0 < minimaxReachable (o (k + 1)) c.1 c.2 hand board depth
        · rw [if_pos hs] at hres
          rcases ih (k + 2) _ m hres with ⟨s, hs'⟩ | hm
          · simp only [Option.some.injEq, Prod.mk.injEq] at hs'
            exact Or.inr (by rw [← hs'.1]; simp)
          · exact Or.inr (List.mem_cons_of_mem _ hm)
        · rw [if_neg hs] at hres
          rcases ih (k + 2) _ m hres with ⟨s, hs'⟩ | hm
          · simp only [Option.some.injEq, Prod.mk.injEq] at hs'
            exact Or.inl ⟨s0, by rw [hs'.1]⟩
          · exact Or.inr (List.mem_cons_of_mem _ hm)

end ScriptJS

/-! ## Helper lemmas: the module-variant enumerator and selectors -/

namespace ModuleJS

theorem mem_moveCandidates (pl : List PlayableEntry) (t : Tile) (side : Side) :
    (t, side) ∈ moveCandidates pl ↔ ∃ e ∈ pl, e.tile = t ∧ side ∈ e.sides := by
  simp only [moveCandidates, List.mem_flatMap, List.mem_map, Prod.mk.injEq]
  constructor
  · rintro ⟨e, he, p, hp, rfl, rfl⟩
    exact ⟨e, he, rfl, hp⟩
  · rintro ⟨e, he, rfl, hp⟩
    exact ⟨e, he, side, hp, rfl, rfl⟩

theorem moveCandidates_ne_nil (pl : List PlayableEntry) (hne : pl ≠ [])
    (hsides : ∀ e ∈ pl, e.sides ≠ []) : moveCandidates pl ≠ [] := by
  obtain ⟨e, rest, rfl⟩ := List.exists_cons_of_ne_nil hne
  obtain ⟨p, prest, hp⟩ := List.exists_cons_of_ne_nil (hsides e (by simp))
  have : (e.tile, p) ∈ moveCandidates (e :: rest) := by
    rw [mem_moveCandidates]
    exact ⟨e, by simp, rfl, by rw [hp]; simp⟩
  exact List.ne_nil_of_mem this

theorem pushRightOnFirst_pres (P : PlayableEntry → Prop)
    (hP : ∀ e, P e → P { e with sides := e.sides ++ [Side.right] }) (tid : String) :
    ∀ l : List PlayableEntry, (∀ e ∈ l, P e) → ∀ e ∈ pushRightOnFirst tid l, P e := by
  intro l
  induction l with
  | nil =>
    intro _ e he
    simp [pushRightOnFirst] at he
  | cons p r ih =>
    intro hl e he
    unfold pushRightOnFirst at he
    by_cases hid : (p.tile.id == tid) = true
    · rw [if_pos hid] at he
      rcases List.mem_cons.mp he with rfl | he
      · exact hP p (hl p (by simp))
      · exact hl e (by simp [he])
    · rw [if_neg hid] at he
      rcases List.mem_cons.mp he with rfl | he
      · exact hl e (by simp)
      · exact ih (fun x hx => hl x (by simp [hx])) e he

theorem playableStep_pres (b : Board) (P : PlayableEntry → Prop)
    (hP : ∀ e, P e → P { e with sides := e.sides ++ [Side.right] })
    (acc : List PlayableEntry) (tile : Tile)
    (hacc : ∀ e ∈ acc, P e)
    (hnew : ∀ pi s, P { tile := tile, playInfo := pi, sides := [s] }) :
    ∀ e ∈ playableStep b acc tile, P e := by
  intro e he
  unfold playableStep at he
  rcases hcl : canPlayLeft b tile with _ | lp
  all_goals rw [hcl] at he
  all_goals dsimp only at he
  · rcases hcr : canPlayRight b tile with _ | rp
    all_goals rw [hcr] at he
    all_goals dsimp only at he
    · exact hacc e he
    · by_cases hany : (acc.any (fun p => p.tile.id == tile.id)) = true
      · rw [if_pos hany] at he
        exact pushRightOnFirst_pres P hP tile.id acc hacc e he
      · rw [if_neg hany] at he
        rcases List.mem_append.mp he with he | he
        · exact hacc e he
        · rw [List.mem_singleton.mp he]
          exact hnew rp Side.right
  · have hacc1 : ∀ x ∈ acc ++ [{ tile := tile, playInfo := lp, sides := [Side.left] }], P x := by
      intro x hx
      rcases List.mem_append.mp hx with hx | hx
      · exact hacc x hx
      · rw [List.mem_singleton.mp hx]
        exact hnew lp Side.left
    rcases hcr : canPlayRight b tile with _ | rp
    all_goals rw [hcr] at he
    all_goals dsimp only at he
    · exact hacc1 e he
    · by_cases hany : ((acc ++
          [({ tile := tile, playInfo := lp, sides := [Side.left] } : PlayableEntry)]).any
          (fun p => p.tile.id == tile.id)) = true
      · rw [if_pos hany] at he
        exact pushRightOnFirst_pres P hP tile.id _ hacc1 e he
      · rw [if_neg hany] at he
        rcases List.mem_append.mp he with he | he
        · exact hacc1 e he
        · rw [List.mem_singleton.mp he]
          exact hnew rp Side.right

theorem foldl_playableStep_pres (b : Board) (P : PlayableEntry → Prop)
    (hP : ∀ e, P e → P { e with sides := e.sides ++ [Side.right] }) :
    ∀ (hand : List Tile) (acc : List PlayableEntry),
      (∀ e ∈ acc, P e) →
      (∀ t ∈ hand, ∀ pi s, P { tile := t, playInfo := pi, sides := [s] }) →
      ∀ e ∈ hand.foldl (playableStep b) acc, P e := by
  intro hand
  induction hand with
  | nil =>
    intro acc hacc _ e he
    exact hacc e he
  | cons t rest ih =>
    intro acc hacc hnew e he
    rw [List.foldl_cons] at he
    exact ih _ (playableStep_pres b P hP acc t hacc (hnew t (by simp)))
      (fun x hx pi s => hnew x (by simp [hx]) pi s) e he

/-- Every entry produced by the module-variant `getPlayableTiles` carries a
tile of the hand and a non-empty list of sides. -/
theorem mem_getPlayableTilesM_props (b : Board) (hand : List Tile) (e : PlayableEntry)
    (he : e ∈ getPlayableTiles b hand) : e.tile ∈ hand ∧ e.sides ≠ [] := by
  refine foldl_playableStep_pres b (fun e => e.tile ∈ hand ∧ e.sides ≠ []) ?_ hand [] ?_ ?_ e he
  · rintro x ⟨h1, h2⟩
    exact ⟨h1, by simp⟩
  · simp
  · intro t ht pi s
    exact ⟨ht, by simp⟩

theorem pushRightOnFirst_append_last (acc : List PlayableEntry) (p : PlayableEntry)
    (tid : String) (hacc : ∀ e ∈ acc, e.tile.id ≠ tid) (hp : p.tile.id = tid) :
    pushRightOnFirst tid (acc ++ [p]) = acc ++ [{ p with sides := p.sides ++ [Side.right] }] := by
  induction acc with
  | nil => simp [pushRightOnFirst, hp]
  | cons a r ih =>
    have ha : (a.tile.id == tid) = false := by
      exact beq_eq_false_iff_ne.mpr (hacc a (by simp))
    simp only [List.cons_append, pushRightOnFirst, ha, Bool.false_eq_true, if_false,
      List.append_eq]
    rw [ih (fun e he => hacc e (by simp [he]))]

theorem playableStep_initBoard (acc : List PlayableEntry) (t : Tile)
    (hacc : ∀ e ∈ acc, e.tile.id ≠ t.id) :
    playableStep initBoard acc t = acc ++ [emptyBoardEntry t] := by
  unfold playableStep
  have hcl : canPlayLeft initBoard t =
      some { tile := t, side := Side.left, needsRotate := false } := rfl
  have hcr : canPlayRight initBoard t =
      some { tile := t, side := Side.right, needsRotate := false } := rfl
  rw [hcl, hcr]
  dsimp only
  have hany : ((acc ++
      [({ tile := t, playInfo := { tile := t, side := Side.left, needsRotate := false },
          sides := [Side.left] } : PlayableEntry)]).any
      (fun p => p.tile.id == t.id)) = true := by
    rw [List.any_eq_true]
    exact ⟨_, List.mem_append_right _ (List.mem_singleton_self _), by simp⟩
  rw [if_pos hany]
  rw [pushRightOnFirst_append_last acc _ t.id hacc rfl]
  rfl

theorem foldl_playableStep_initBoard :
    ∀ (hand : List Tile) (acc : List PlayableEntry),
      (hand.map Tile.id).Nodup →
      (∀ e ∈ acc, e.tile.id ∉ hand.map Tile.id) →
      hand.foldl (playableStep initBoard) acc = acc ++ hand.map emptyBoardEntry := by
  intro hand
  induction hand with
  | nil =>
    intro acc _ _
    simp
  | cons t rest ih =>
    intro acc hnd hacc
    rw [List.foldl_cons, playableStep_initBoard acc t
      (fun e he heq => hacc e he (by rw [heq]; simp))]
    rw [List.map_cons] at hnd
    rw [ih _ (List.nodup_cons.mp hnd).2 ?_]
    · simp [emptyBoardEntry]
    · intro e he
      rcases List.mem_append.mp he with he | he
      · exact fun hin => hacc e he (by simp [hin])
      · rw [List.mem_singleton.mp he]
        exact (List.nodup_cons.mp hnd).1

/-- On an empty board the module-variant enumerator returns exactly one entry
per hand tile (for hands with pairwise distinct tile ids), each marked legal
on BOTH sides: `canPlayLeft` and `canPlayRight` both accept any tile there,
and the `existing.sides.push('right')` branch merges the two into one entry
with `sides = ['left', 'right']`. -/
theorem getPlayableTiles_initBoard (hand : List Tile) (hnd : (hand.map Tile.id).Nodup) :
    getPlayableTiles initBoard hand = hand.map emptyBoardEntry := by
  have := foldl_playableStep_initBoard hand [] hnd (by simp)
  simpa [getPlayableTiles] using this

theorem selectEasyMove_some (r s : Nat) (p : PlayableEntry) (rest : List PlayableEntry)
    (hsides : ∀ e ∈ p :: rest, e.sides ≠ []) :
    ∃ t side, selectEasyMove r s (p :: rest) = some (t, side) := by
  unfold selectEasyMove
  dsimp only
  split
  · rename_i heq
    exact absurd heq (hsides _ (List.get_mem _ _ _))
  · exact ⟨_, _, rfl⟩

theorem selectMediumMove_some (r s : Nat) (b : Board) (hand : List Tile)
    (pl : List PlayableEntry) (hne : pl ≠ []) (hsides : ∀ e ∈ pl, e.sides ≠ []) :
    ∃ t side, selectMediumMove r s b hand pl = some (t, side) := by
  unfold selectMediumMove
  rcases hbl : bestLoop (fun c => evaluateMoveHeuristic b hand c.1 c.2)
      (moveCandidates pl) none with _ | ⟨m, sc⟩
  · obtain ⟨p, rest, rfl⟩ := List.exists_cons_of_ne_nil hne
    obtain ⟨t, side, h⟩ := selectEasyMove_some r s p rest hsides
    exact ⟨t, side, by rw [hbl]; exact h⟩
  · exact ⟨m.1, m.2, by rw [hbl]⟩

theorem selectHardMove_some (r s : Nat) (b : Board) (hand : List Tile)
    (pl : List PlayableEntry) (hne : pl ≠ []) (hsides : ∀ e ∈ pl, e.sides ≠ []) :
    ∃ t side, selectHardMove r s b hand pl = some (t, side) := by
  unfold selectHardMove
  rcases hbl : bestLoop (fun c => minimaxEvaluate b hand c.1 c.2 2)
      (moveCandidates pl) none with _ | ⟨m, sc⟩
  · obtain ⟨t, side, h⟩ := selectMediumMove_some r s b hand pl hne hsides
    exact ⟨t, side, by rw [hbl]; exact h⟩
  · exact ⟨m.1, m.2, by rw [hbl]⟩

/-- `selectBestMove` returns the sentinel `none` precisely when the legal-move
set is empty, at every difficulty value and for every random draw. -/
theorem selectBestMove_none_iff (r s : Nat) (difficulty : String) (b : Board)
    (hand : List Tile) :
    selectBestMove r s difficulty b hand = none ↔ getPlayableTiles b hand = [] := by
  constructor
  · intro hres
    by_contra hne
    have hsides : ∀ e ∈ getPlayableTiles b hand, e.sides ≠ [] :=
      fun e he => (mem_getPlayableTilesM_props b hand e he).2
    have hlen : ¬ (getPlayableTiles b hand).length = 0 := by
      simpa [List.length_eq_zero] using hne
    unfold selectBestMove at hres
    rw [if_neg hlen] at hres
    by_cases h1 : (difficulty == "easy") = true
    · rw [if_pos h1] at hres
      obtain ⟨p, rest, hpl⟩ := List.exists_cons_of_ne_nil hne
      rw [hpl] at hres
      obtain ⟨t, side, h⟩ := selectEasyMove_some r s p rest (by rw [← hpl]; exact hsides)
      rw [h] at hres
      exact Option.noConfusion hres
    · rw [if_neg h1] at hres
      by_cases h2 : (difficulty == "medium") = true
      · rw [if_pos h2] at hres
        obtain ⟨t, side, h⟩ := selectMediumMove_some r s b hand _ hne hsides
        rw [h] at hres
        exact Option.noConfusion hres
      · rw [if_neg h2] at hres
        by_cases h3 : (difficulty == "hard") = true
        · rw [if_pos h3] at hres
          obtain ⟨t, side, h⟩ := selectHardMove_some r s b hand _ hne hsides
          rw [h] at hres
          exact Option.noConfusion hres
        · rw [if_neg h3] at hres
          obtain ⟨t, side, h⟩ := selectMediumMove_some r s b hand _ hne hsides
          rw [h] at hres
          exact Option.noConfusion hres
  · intro hpl
    unfold selectBestMove
    rw [if_pos (by rw [hpl]; rfl)]

end ModuleJS

namespace ScriptJS

/-- `hardMove` always returns a member of the enumerated legal-move set when
that set is non-empty, for every timing behaviour of the wall clock. -/
theorem hardMove_legal (o : Nat → Bool) (hand : List Tile) (board : Board)
    (pool : List Tile) (hne : getPlayableTiles hand board ≠ []) :
    ∃ t p, hardMove o (getPlayableTiles hand board) hand board pool = some (t, p) ∧
      ∃ e ∈ getPlayableTiles hand board, e.tile = t ∧ p ∈ e.positions := by
  have hpos : ∀ e ∈ getPlayableTiles hand board, e.positions ≠ [] :=
    fun e he => (mem_getPlayableTiles_props _ _ e he).2
  have hcand : candidates (getPlayableTiles hand board) ≠ [] :=
    candidates_ne_nil _ hne hpos
  obtain ⟨m, hm⟩ := hardLoop_none_some o hand board (hardMaxDepth pool - 1)
    (candidates (getPlayableTiles hand board)) hcand 0
  have hmem : m ∈ candidates (getPlayableTiles hand board) := by
    rcases hardLoop_mem o hand board _ _ 0 none m hm with ⟨sx, hsx⟩ | h
    · exact absurd hsx (by simp)
    · exact h
  refine ⟨m.1, m.2, ?_, (mem_candidates _ m.1 m.2).mp (by rwa [Prod.mk.eta])⟩
  unfold hardMove
  rw [hm]

end ScriptJS

namespace ModuleJS

/-- Unfolding law of the hard evaluator at depth ≥ 2 with future plays
available: the node score is the heuristic, plus 3 per future playable entry,
plus HALF the best recursive score among the FIRST 3 future entries (in
enumeration order), plus the win bonus. -/
theorem minimax_deep_unfold (b : Board) (hand : List Tile) (t : Tile) (side : Side)
    (d : Nat)
    (hfp : (getPlayableTiles (simulatedBoardAfter b t side)
        (remainingHandAfter hand t)).length > 0) :
    minimaxEvaluate b hand t side (d + 2) =
      evaluateMoveHeuristic b hand t side +
        ((getPlayableTiles (simulatedBoardAfter b t side)
            (remainingHandAfter hand t)).length : ℚ) * 3 +
        maxListQ (((getPlayableTiles (simulatedBoardAfter b t side)
              (remainingHandAfter hand t)).take 3).map (fun fp =>
            minimaxEvaluate (simulatedBoardAfter b t side)
              (remainingHandAfter hand t) fp.tile (sides0 fp) (d + 1))) * (1 / 2) +
        winBonus hand t := by
  unfold simulatedBoardAfter remainingHandAfter at hfp ⊢
  simp only [minimaxEvaluate]
  rw [if_pos hfp, if_pos (Nat.succ_pos d)]

/-- On a singleton hand, `selectHardMove` selects the unique (hand-emptying)
tile with a side from its enumerated entry. -/
theorem selectHardMove_singleton (r s : Nat) (b : Board) (t : Tile)
    (hne : getPlayableTiles b [t] ≠ []) :
    ∃ side, selectHardMove r s b [t] (getPlayableTiles b [t]) = some (t, side) ∧
      (t, side) ∈ moveCandidates (getPlayableTiles b [t]) := by
  have hsides : ∀ e ∈ getPlayableTiles b [t], e.sides ≠ [] :=
    fun e he => (mem_getPlayableTilesM_props _ _ e he).2
  obtain ⟨m, sc, hm⟩ := bestLoop_none_some (fun c => minimaxEvaluate b [t] c.1 c.2 2)
    (moveCandidates (getPlayableTiles b [t])) (moveCandidates_ne_nil _ hne hsides)
  obtain ⟨hsc, pre, post, hdecomp, hpre, hpost⟩ := bestLoop_none_spec _ _ _ _ hm
  have hmem : m ∈ moveCandidates (getPlayableTiles b [t]) := by
    rw [hdecomp]
    exact List.mem_append_right _ (by simp)
  obtain ⟨e, he, het, hes⟩ :=
    (mem_moveCandidates _ m.1 m.2).mp (by rwa [Prod.mk.eta])
  have ht : m.1 = t := by
    have hmem1 := (mem_getPlayableTilesM_props b [t] e he).1
    rw [het] at hmem1
    exact (List.mem_singleton.mp hmem1)
  have hmt : m = (t, m.2) := by
    rw [← ht]
  refine ⟨m.2, ?_, ?_⟩
  · unfold selectHardMove
    rw [hm, ← hmt]
  · rw [← hmt]
    exact hmem

end ModuleJS

/-! ## Helper lemmas: remaining pieces -/

namespace ScriptJS

/-- `cloneBoard` reproduces the board exactly as a value: same tiles
sequence, same open-end scalars (the fresh arrays/objects make the copy
independent of the original in the JS heap). -/
theorem cloneBoard_eq (b : Board) : cloneBoard b = b := by
  unfold cloneBoard
  have : b.tiles.map Tile.clone = b.tiles := by
    rw [show Tile.clone = id from rfl, List.map_id]
  rw [this]

/-- An illegal left placement on a non-empty board: `addTile` returns `false`
and the receiver keeps its exact state. -/
theorem addTile_illegal_left (b : Board) (t : Tile) (hne : b.tiles ≠ [])
    (h1 : b.leftEnd ≠ some t.right) (h2 : b.leftEnd ≠ some t.left) :
    b.addTile t Side.left = (false, b) := by
  unfold Board.addTile
  rw [if_neg (by simp [Board.isEmpty, hne])]
  dsimp only
  rw [if_neg (fun h => h1 h.symm), if_neg (fun h => h2 h.symm)]

/-- An illegal right placement on a non-empty board: `addTile` returns
`false` and the receiver keeps its exact state. -/
theorem addTile_illegal_right (b : Board) (t : Tile) (hne : b.tiles ≠ [])
    (h1 : b.rightEnd ≠ some t.left) (h2 : b.rightEnd ≠ some t.right) :
    b.addTile t Side.right = (false, b) := by
  unfold Board.addTile
  rw [if_neg (by simp [Board.isEmpty, hne])]
  dsimp only
  rw [if_neg (fun h => h1 h.symm), if_neg (fun h => h2 h.symm)]

/-- On an empty board `Player.getPlayableTiles` returns one entry per hand
tile, marked with the single canonical position `'left'`. -/
theorem getPlayableTiles_empty (hand : List Tile) :
    getPlayableTiles hand Board.init =
      hand.map (fun t => { tile := t, positions := [Side.left] }) := rfl

end ScriptJS

namespace ModuleJS

/-- `canPlayLeft` hands `placeLeft` either the tile itself or a rotated copy
— the caller's tile object is never written to. -/
theorem canPlayLeft_tile_shape (b : Board) (t : Tile) (pi : PlayInfo)
    (h : canPlayLeft b t = some pi) : pi.tile = t ∨ pi.tile = rotateTile t := by
  unfold canPlayLeft at h
  split at h
  · exact Or.inl (by rw [← Option.some_injective _ h])
  · split at h
    · exact Or.inl (by rw [← Option.some_injective _ h])
    · split at h
      · exact Or.inr (by rw [← Option.some_injective _ h])
      · exact absurd h (by simp)

/-- `canPlayRight` hands `placeRight` either the tile itself or a rotated
copy. -/
theorem canPlayRight_tile_shape (b : Board) (t : Tile) (pi : PlayInfo)
    (h : canPlayRight b t = some pi) : pi.tile = t ∨ pi.tile = rotateTile t := by
  unfold canPlayRight at h
  split at h
  · exact Or.inl (by rw [← Option.some_injective _ h])
  · split at h
    · exact Or.inl (by rw [← Option.some_injective _ h])
    · split at h
      · exact Or.inr (by rw [← Option.some_injective _ h])
      · exact absurd h (by simp)

/-- `placeLeft` is a pure function of its two arguments: the new board's
tiles are the prepended sequence, and the appended history entry records the
input board's previous open-end scalars (spec §8's round-trip data). -/
theorem placeLeft_shape (b : Board) (pi : PlayInfo) :
    (placeLeft b pi).tiles = pi.tile :: b.tiles ∧
    (placeLeft b pi).history = b.history ++
      [{ action := "place", side := Side.left, tile := pi.tile,
         prevLeftValue := b.leftValue, prevRightValue := b.rightValue }] := by
  unfold placeLeft
  split <;> exact ⟨rfl, rfl⟩

/-- `placeRight` is a pure function of its two arguments, appending the tile
and recording the previous open-end scalars. -/
theorem placeRight_shape (b : Board) (pi : PlayInfo) :
    (placeRight b pi).tiles = b.tiles ++ [pi.tile] ∧
    (placeRight b pi).history = b.history ++
      [{ action := "place", side := Side.right, tile := pi.tile,
         prevLeftValue := b.leftValue, prevRightValue := b.rightValue }] := by
  unfold placeRight
  split <;> exact ⟨rfl, rfl⟩

/-- An illegal left placement attempt is rejected by the validator:
`canPlayLeft` yields `null`, distinctly from the no-legal-move sentinel of
selection. -/
theorem canPlayLeft_illegal (b : Board) (t : Tile)
    (hne : ¬(b.leftValue = none ∧ b.rightValue = none))
    (h1 : b.leftValue ≠ some t.b) (h2 : b.leftValue ≠ some t.a) :
    canPlayLeft b t = none := by
  unfold canPlayLeft
  rw [if_neg hne, if_neg (fun h => h1 h.symm), if_neg (fun h => h2 h.symm)]

/-- An illegal right placement attempt is rejected by the validator. -/
theorem canPlayRight_illegal (b : Board) (t : Tile)
    (hne : ¬(b.leftValue = none ∧ b.rightValue = none))
    (h1 : b.rightValue ≠ some t.a) (h2 : b.rightValue ≠ some t.b) :
    canPlayRight b t = none := by
  unfold canPlayRight
  rw [if_neg hne, if_neg (fun h => h1 h.symm), if_neg (fun h => h2 h.symm)]

end ModuleJS

/-! ## Helper lemmas: closed forms of the hard evaluator -/

namespace ModuleJS

theorem filter_ne_self_id (t : Tile) : [t].filter (fun x => x.id != t.id) = [] := by
  simp [List.filter]

/-- On a singleton hand the candidate tile removes itself, no future play
remains, and the win bonus fires: depth 0 yields heuristic + 100. -/
theorem minimax_singleton_zero (b : Board) (t : Tile) (side : Side) :
    minimaxEvaluate b [t] t side 0 = evaluateMoveHeuristic b [t] t side + 100 := by
  simp [minimaxEvaluate, winBonus]

/-- On a singleton hand at positive depth: the empty remaining hand has no
playable tile, so the −20 penalty and the +100 win bonus both fire. -/
theorem minimax_singleton_succ (b : Board) (t : Tile) (side : Side) (d : Nat) :
    minimaxEvaluate b [t] t side (d + 1) =
      evaluateMoveHeuristic b [t] t side - 20 + 100 := by
  rw [show minimaxEvaluate b [t] t side (d + 1) =
      (if (getPlayableTiles
            { b with leftValue := newLeftValueAfter b t side,
                     rightValue := newRightValueAfter b t side }
            ([t].filter (fun x => x.id != t.id))).length > 0 then
          (0 : ℚ)
        else evaluateMoveHeuristic b [t] t side - 20) + winBonus [t] t from ?_]
  · rw [filter_ne_self_id]
    simp [getPlayableTiles, winBonus]
  · rw [filter_ne_self_id]
    simp only [minimaxEvaluate, filter_ne_self_id]
    rw [if_neg (by simp [getPlayableTiles]), if_neg (by simp [getPlayableTiles])]

end ModuleJS

/-! ## Claim theorems -/

/-- C1: a placement whose tile matches neither value needed on the chosen
side fails without mutating the board, and that failure is signalled on a
channel distinct from the no-legal-moves sentinel.  In `script.js`,
`Board.addTile` returns `false` with the receiver's tiles and both end
scalars untouched; in the module variant `canPlayLeft`/`canPlayRight` return
`null`, so `placeLeft`/`placeRight` are never reached; the no-legal-move
condition is instead reported by `selectBestMove`'s `none`, which occurs
exactly when the enumerated legal set is empty. -/
theorem C1_illegal_placement_rejected :
    (∀ (b : ScriptJS.Board) (t : ScriptJS.Tile), b.tiles ≠ [] →
      b.leftEnd ≠ some t.right → b.leftEnd ≠ some t.left →
      b.addTile t Side.left = (false, b)) ∧
    (∀ (b : ScriptJS.Board) (t : ScriptJS.Tile), b.tiles ≠ [] →
      b.rightEnd ≠ some t.left → b.rightEnd ≠ some t.right →
      b.addTile t Side.right = (false, b)) ∧
    (∀ (b : ModuleJS.Board) (t : ModuleJS.Tile),
      ¬(b.leftValue = none ∧ b.rightValue = none) →
      b.leftValue ≠ some t.b → b.leftValue ≠ some t.a →
      ModuleJS.canPlayLeft b t = none) ∧
    (∀ (b : ModuleJS.Board) (t : ModuleJS.Tile),
      ¬(b.leftValue = none ∧ b.rightValue = none) →
      b.rightValue ≠ some t.a → b.rightValue ≠ some t.b →
      ModuleJS.canPlayRight b t = none) ∧
    (∀ (r s : Nat) (difficulty : String) (b : ModuleJS.Board)
      (hand : List ModuleJS.Tile),
      ModuleJS.selectBestMove r s difficulty b hand = none ↔
        ModuleJS.getPlayableTiles b hand = []) :=
  ⟨ScriptJS.addTile_illegal_left, ScriptJS.addTile_illegal_right,
   ModuleJS.canPlayLeft_illegal, ModuleJS.canPlayRight_illegal,
   ModuleJS.selectBestMove_none_iff⟩

theorem C1_witness :
    b25JS.addTile s34JS Side.left = (false, b25JS) ∧
    b25JS.addTile s34JS Side.right = (false, b25JS) ∧
    ModuleJS.canPlayLeft b23M t45M = none ∧
    ModuleJS.canPlayRight b23M t45M = none ∧
    (ModuleJS.selectBestMove 0 0 "hard" b23M [t34M] = none ↔
      ModuleJS.getPlayableTiles b23M [t34M] = []) :=
  ⟨C1_illegal_placement_rejected.1 b25JS s34JS (by decide) (by decide) (by decide),
   C1_illegal_placement_rejected.2.1 b25JS s34JS (by decide) (by decide) (by decide),
   C1_illegal_placement_rejected.2.2.1 b23M t45M (by decide) (by decide) (by decide),
   C1_illegal_placement_rejected.2.2.2.1 b23M t45M (by decide) (by decide) (by decide),
   C1_illegal_placement_rejected.2.2.2.2 0 0 "hard" b23M [t34M]⟩

/-- C2: every board reachable from the empty board by validated placements
satisfies the chain invariant — the left end scalar equals the first tile's
outward value, the right end scalar equals the last tile's outward value
(both are encoded in `InvJS`/`InvM` through `head?`/`getLast?`, so they are
`null` exactly on the empty board), and every adjacent pair of placed tiles
touches with equal values — and each placement operation (`addTile`,
`placeLeft`, `placeRight`) preserves that invariant. -/
theorem C2_board_invariant :
    (∀ b : ScriptJS.Board, ScriptJS.ReachableJS b → ScriptJS.InvJS b) ∧
    (∀ (b : ScriptJS.Board) (t : ScriptJS.Tile) (pos : Side),
      ScriptJS.InvJS b → ScriptJS.InvJS (b.addTile t pos).2) ∧
    (∀ b : ModuleJS.Board, ModuleJS.ReachableM b → ModuleJS.InvM b) ∧
    (∀ (b : ModuleJS.Board) (t : ModuleJS.Tile) (pi : ModuleJS.PlayInfo),
      ModuleJS.InvM b → ModuleJS.canPlayLeft b t = some pi →
      ModuleJS.InvM (ModuleJS.placeLeft b pi)) ∧
    (∀ (b : ModuleJS.Board) (t : ModuleJS.Tile) (pi : ModuleJS.PlayInfo),
      ModuleJS.InvM b → ModuleJS.canPlayRight b t = some pi →
      ModuleJS.InvM (ModuleJS.placeRight b pi)) :=
  ⟨ScriptJS.reachableJS_inv,
   fun b t pos h => ScriptJS.addTile_preserves_inv b t pos h,
   ModuleJS.reachableM_inv,
   ModuleJS.placeLeft_preserves_inv,
   ModuleJS.placeRight_preserves_inv⟩

theorem C2_witness :
    ScriptJS.InvJS (b25JS.addTile s56JS Side.right).2 ∧ ModuleJS.InvM b23M :=
  ⟨C2_board_invariant.2.1 b25JS s56JS Side.right ⟨rfl, rfl, rfl⟩,
   C2_board_invariant.2.2.2.1 ModuleJS.initBoard t23M
     { tile := t23M, side := Side.left, needsRotate := false }
     ⟨rfl, rfl, rfl⟩ rfl⟩

/-- C3: whenever the enumerated legal-move set is non-empty, `hardMove`
returns `some (tile, position)` with the pair drawn from an entry of that
set — for EVERY wall-clock oracle, i.e. also on every run truncated by the
1.5-second budget (the timeout path returns the best candidate so far or the
candidate under evaluation, both legal). -/
theorem C3_hard_returns_legal_move (o : Nat → Bool) (hand : List ScriptJS.Tile)
    (board : ScriptJS.Board) (pool : List ScriptJS.Tile)
    (hne : ScriptJS.getPlayableTiles hand board ≠ []) :
    ∃ t p, ScriptJS.hardMove o (ScriptJS.getPlayableTiles hand board) hand board pool =
        some (t, p) ∧
      ∃ e ∈ ScriptJS.getPlayableTiles hand board, e.tile = t ∧ p ∈ e.positions :=
  ScriptJS.hardMove_legal o hand board pool hne

theorem C3_witness :
    ∃ t p, ScriptJS.hardMove (fun k => k % 2 = 0)
        (ScriptJS.getPlayableTiles [s34JS, s56JS] b25JS) [s34JS, s56JS] b25JS [] =
        some (t, p) ∧
      ∃ e ∈ ScriptJS.getPlayableTiles [s34JS, s56JS] b25JS, e.tile = t ∧ p ∈ e.positions :=
  C3_hard_returns_legal_move (fun k => k % 2 = 0) [s34JS, s56JS] b25JS [] (by decide)

/-- C4: in both variants the medium selector returns, of the enumerated
`(tile, side)` candidates, the first one attaining the maximal heuristic
score: every earlier candidate scores strictly less and every candidate at
most as much (`score > bestScore` keeps the first maximum on ties). -/
theorem C4_medium_picks_first_max :
    (∀ (hand : List ScriptJS.Tile) (board : ScriptJS.Board),
      ScriptJS.getPlayableTiles hand board ≠ [] →
      ∃ m pre post,
        ScriptJS.mediumMove (ScriptJS.getPlayableTiles hand board) hand board = some m ∧
        ScriptJS.candidates (ScriptJS.getPlayableTiles hand board) = pre ++ m :: post ∧
        (∀ c ∈ pre,
          ScriptJS.evaluateMove c.1 c.2 hand board <
            ScriptJS.evaluateMove m.1 m.2 hand board) ∧
        (∀ c ∈ ScriptJS.candidates (ScriptJS.getPlayableTiles hand board),
          ScriptJS.evaluateMove c.1 c.2 hand board ≤
            ScriptJS.evaluateMove m.1 m.2 hand board)) ∧
    (∀ (r s : Nat) (board : ModuleJS.Board) (hand : List ModuleJS.Tile),
      ModuleJS.getPlayableTiles board hand ≠ [] →
      ∃ m pre post,
        ModuleJS.selectMediumMove r s board hand (ModuleJS.getPlayableTiles board hand) =
          some m ∧
        ModuleJS.moveCandidates (ModuleJS.getPlayableTiles board hand) = pre ++ m :: post ∧
        (∀ c ∈ pre,
          ModuleJS.evaluateMoveHeuristic board hand c.1 c.2 <
            ModuleJS.evaluateMoveHeuristic board hand m.1 m.2) ∧
        (∀ c ∈ ModuleJS.moveCandidates (ModuleJS.getPlayableTiles board hand),
          ModuleJS.evaluateMoveHeuristic board hand c.1 c.2 ≤
            ModuleJS.evaluateMoveHeuristic board hand m.1 m.2)) := by
  constructor
  · intro hand board hne
    have hpos : ∀ e ∈ ScriptJS.getPlayableTiles hand board, e.positions ≠ [] :=
      fun e he => (ScriptJS.mem_getPlayableTiles_props _ _ e he).2
    obtain ⟨m, sc, hm⟩ :=
      bestLoop_none_some (fun c => ScriptJS.evaluateMove c.1 c.2 hand board)
        (ScriptJS.candidates (ScriptJS.getPlayableTiles hand board))
        (ScriptJS.candidates_ne_nil _ hne hpos)
    obtain ⟨hsc, pre, post, hdecomp, hpre, hpost⟩ := bestLoop_none_spec _ _ _ _ hm
    refine ⟨m, pre, post, ?_, hdecomp, hpre,
      bestLoop_max_of_decomp _ hdecomp hpre hpost⟩
    unfold ScriptJS.mediumMove
    rw [hm]
    rfl
  · intro r s board hand hne
    have hsides : ∀ e ∈ ModuleJS.getPlayableTiles board hand, e.sides ≠ [] :=
      fun e he => (ModuleJS.mem_getPlayableTilesM_props _ _ e he).2
    obtain ⟨m, sc, hm⟩ :=
      bestLoop_none_some (fun c => ModuleJS.evaluateMoveHeuristic board hand c.1 c.2)
        (ModuleJS.moveCandidates (ModuleJS.getPlayableTiles board hand))
        (ModuleJS.moveCandidates_ne_nil _ hne hsides)
    obtain ⟨hsc, pre, post, hdecomp, hpre, hpost⟩ := bestLoop_none_spec _ _ _ _ hm
    refine ⟨m, pre, post, ?_, hdecomp, hpre,
      bestLoop_max_of_decomp _ hdecomp hpre hpost⟩
    unfold ModuleJS.selectMediumMove
    rw [hm]

theorem C4_witness :
    (∃ m pre post,
      ScriptJS.mediumMove (ScriptJS.getPlayableTiles [s34JS, s56JS] b25JS)
        [s34JS, s56JS] b25JS = some m ∧
      ScriptJS.candidates (ScriptJS.getPlayableTiles [s34JS, s56JS] b25JS) =
        pre ++ m :: post ∧
      (∀ c ∈ pre,
        ScriptJS.evaluateMove c.1 c.2 [s34JS, s56JS] b25JS <
          ScriptJS.evaluateMove m.1 m.2 [s34JS, s56JS] b25JS) ∧
      (∀ c ∈ ScriptJS.candidates (ScriptJS.getPlayableTiles [s34JS, s56JS] b25JS),
        ScriptJS.evaluateMove c.1 c.2 [s34JS, s56JS] b25JS ≤
          ScriptJS.evaluateMove m.1 m.2 [s34JS, s56JS] b25JS)) ∧
    (∃ m pre post,
      ModuleJS.selectMediumMove 0 0 b23M [t34M, t45M]
        (ModuleJS.getPlayableTiles b23M [t34M, t45M]) = some m ∧
      ModuleJS.moveCandidates (ModuleJS.getPlayableTiles b23M [t34M, t45M]) =
        pre ++ m :: post ∧
      (∀ c ∈ pre,
        ModuleJS.evaluateMoveHeuristic b23M [t34M, t45M] c.1 c.2 <
          ModuleJS.evaluateMoveHeuristic b23M [t34M, t45M] m.1 m.2) ∧
      (∀ c ∈ ModuleJS.moveCandidates (ModuleJS.getPlayableTiles b23M [t34M, t45M]),
        ModuleJS.evaluateMoveHeuristic b23M [t34M, t45M] c.1 c.2 ≤
          ModuleJS.evaluateMoveHeuristic b23M [t34M, t45M] m.1 m.2)) :=
  ⟨C4_medium_picks_first_max.1 [s34JS, s56JS] b25JS (by decide),
   C4_medium_picks_first_max.2 0 0 b23M [t34M, t45M] (by decide)⟩

/-- C5: the hand-emptying win bonus and its dominance.  In the module
variant's `minimaxEvaluate` a flat +100 is added exactly when the candidate
is the only tile left in the hand (shown by the closed forms at depth 0 and
at positive depth, where the emptied hand also triggers the −20 no-future
penalty), and `selectHardMove` on a singleton hand always selects that
(immediately winning) tile.  A candidate can empty the hand only when the
hand is a singleton, in which case EVERY legal candidate plays that same
tile, so no non-emptying competitor exists; accordingly the `script.js`
`hardMove` also returns the winning tile on a singleton hand, for every
wall-clock oracle. -/
theorem C5_win_bonus_dominates :
    (∀ (b : ModuleJS.Board) (t : ModuleJS.Tile) (side : Side),
      ModuleJS.minimaxEvaluate b [t] t side 0 =
        ModuleJS.evaluateMoveHeuristic b [t] t side + 100) ∧
    (∀ (b : ModuleJS.Board) (t : ModuleJS.Tile) (side : Side) (d : Nat),
      ModuleJS.minimaxEvaluate b [t] t side (d + 1) =
        ModuleJS.evaluateMoveHeuristic b [t] t side - 20 + 100) ∧
    (∀ (r s : Nat) (b : ModuleJS.Board) (t : ModuleJS.Tile),
      ModuleJS.getPlayableTiles b [t] ≠ [] →
      ∃ side, ModuleJS.selectHardMove r s b [t] (ModuleJS.getPlayableTiles b [t]) =
          some (t, side) ∧
        (t, side) ∈ ModuleJS.moveCandidates (ModuleJS.getPlayableTiles b [t])) ∧
    (∀ (o : Nat → Bool) (b : ScriptJS.Board) (pool : List ScriptJS.Tile)
      (t : ScriptJS.Tile), ScriptJS.getPlayableTiles [t] b ≠ [] →
      ∃ p, ScriptJS.hardMove o (ScriptJS.getPlayableTiles [t] b) [t] b pool =
        some (t, p)) := by
  refine ⟨ModuleJS.minimax_singleton_zero, ModuleJS.minimax_singleton_succ,
    ModuleJS.selectHardMove_singleton, ?_⟩
  intro o b pool t hne
  obtain ⟨t', p, hres, e, he, het, hp⟩ := ScriptJS.hardMove_legal o [t] b pool hne
  have ht : t' = t := by
    have hmem := (ScriptJS.mem_getPlayableTiles_props [t] b e he).1
    rw [het] at hmem
    exact List.mem_singleton.mp hmem
  rw [ht] at hres
  exact ⟨p, hres⟩

theorem C5_witness :
    ModuleJS.minimaxEvaluate b23M [t34M] t34M Side.right 0 =
      ModuleJS.evaluateMoveHeuristic b23M [t34M] t34M Side.right + 100 ∧
    ModuleJS.minimaxEvaluate b23M [t34M] t34M Side.right 2 =
      ModuleJS.evaluateMoveHeuristic b23M [t34M] t34M Side.right - 20 + 100 ∧
    (∃ side, ModuleJS.selectHardMove 0 0 b23M [t34M]
        (ModuleJS.getPlayableTiles b23M [t34M]) = some (t34M, side) ∧
      (t34M, side) ∈ ModuleJS.moveCandidates (ModuleJS.getPlayableTiles b23M [t34M])) ∧
    (∃ p, ScriptJS.hardMove (fun _ => false) (ScriptJS.getPlayableTiles [s56JS] b25JS)
        [s56JS] b25JS [] = some (s56JS, p)) :=
  ⟨C5_win_bonus_dominates.1 b23M t34M Side.right,
   C5_win_bonus_dominates.2.1 b23M t34M Side.right 1,
   C5_win_bonus_dominates.2.2.1 0 0 b23M t34M (by decide),
   C5_win_bonus_dominates.2.2.2 (fun _ => false) b25JS [] s56JS (by decide)⟩

/-- C6 counterexample: on the empty board the module-variant enumerator
(`src/js/board.js`) marks a hand tile legal on BOTH sides, not on a single
canonical side: `canPlayLeft` and `canPlayRight` both accept any tile when
both end values are `null`, and the dedup branch merges them into one entry
with `sides = ['left', 'right']`. -/
theorem C6_counterexample :
    (ModuleJS.getPlayableTiles ModuleJS.initBoard [t25M]).map
        ModuleJS.PlayableEntry.sides = [[Side.left, Side.right]] ∧
    ¬(∀ e ∈ ModuleJS.getPlayableTiles ModuleJS.initBoard [t25M], e.sides.length = 1) :=
  ⟨by decide, by decide⟩

/-- C6 (amended): on the empty board both enumerators return exactly one
candidate entry per hand tile, in hand order, omitting none; in `script.js`
each entry carries the single canonical position `'left'`, while in the
module variant (for hands with pairwise distinct tile ids) each entry
carries both sides `['left', 'right']`. -/
theorem C6_empty_board_enumeration :
    (∀ hand : List ScriptJS.Tile,
      ScriptJS.getPlayableTiles hand ScriptJS.Board.init =
        hand.map (fun t => { tile := t, positions := [Side.left] })) ∧
    (∀ hand : List ModuleJS.Tile, (hand.map ModuleJS.Tile.id).Nodup →
      ModuleJS.getPlayableTiles ModuleJS.initBoard hand =
        hand.map ModuleJS.emptyBoardEntry) :=
  ⟨ScriptJS.getPlayableTiles_empty, ModuleJS.getPlayableTiles_initBoard⟩

theorem C6_witness :
    ScriptJS.getPlayableTiles [s25JS, s34JS] ScriptJS.Board.init =
      [s25JS, s34JS].map (fun t => { tile := t, positions := [Side.left] }) ∧
    ModuleJS.getPlayableTiles ModuleJS.initBoard [t23M, t45M] =
      [t23M, t45M].map ModuleJS.emptyBoardEntry :=
  ⟨C6_empty_board_enumeration.1 [s25JS, s34JS],
   C6_empty_board_enumeration.2 [t23M, t45M] (by decide)⟩

/-- C7 counterexample: a node's score in the module variant's hard search is
NOT `heuristic + ½·(best score one level deeper)`: at the board `[2|3]` with
hand `{3-4, 4-5}`, candidate `3-4` on the right at depth 2, the actual
`minimaxEvaluate` score (403/6) also contains the +3-per-future-playable
mobility term, which the claimed formula (385/6) omits. -/
theorem C7_counterexample :
    ModuleJS.minimaxEvaluate b23M [t34M, t45M] t34M Side.right 2 ≠
      ModuleJS.evaluateMoveHeuristic b23M [t34M, t45M] t34M Side.right +
        (1 / 2) * ModuleJS.maxListQ
          ((ModuleJS.getPlayableTiles simB23M
              (ModuleJS.remainingHandAfter [t34M, t45M] t34M)).map
            (fun fp => ModuleJS.minimaxEvaluate simB23M
              (ModuleJS.remainingHandAfter [t34M, t45M] t34M)
              fp.tile (ModuleJS.sides0 fp) 1)) := by
  intro heq
  rw [show simB23M = ModuleJS.simulatedBoardAfter b23M t34M Side.right from rfl] at heq
  have hL : ModuleJS.getPlayableTiles (ModuleJS.simulatedBoardAfter b23M t34M Side.right)
      (ModuleJS.remainingHandAfter [t34M, t45M] t34M) =
      [{ tile := t45M, playInfo := { tile := t45M, side := Side.right, needsRotate := false },
         sides := [Side.right] }] := by decide
  rw [ModuleJS.minimax_deep_unfold b23M [t34M, t45M] t34M Side.right 0
    (by rw [hL]; decide), hL] at heq
  simp only [List.take, List.map, List.length_cons, List.length_nil, ModuleJS.sides0,
    ModuleJS.maxListQ, List.foldl_nil, List.headD, ModuleJS.winBonus, Nat.cast_ofNat,
    Nat.cast_one] at heq
  linarith

/-- C7 (amended): the depth rule and the recursion law as the code actually
has them.  `script.js`'s `hardMove` uses fixed depth 2 when the draw pile
holds more than 5 tiles and 3 otherwise; the module variant's
`minimaxEvaluate` at depth ≥ 2 with future plays available scores a node as
heuristic + 3 per future playable entry + ½·(best recursive score among the
FIRST three future entries, in enumeration order — a branching cap of 3, not
a top-few-by-score selection) + the win bonus. -/
theorem C7_hard_search_shape :
    (∀ pool : List ScriptJS.Tile, 5 < pool.length → ScriptJS.hardMaxDepth pool = 2) ∧
    (∀ pool : List ScriptJS.Tile, pool.length ≤ 5 → ScriptJS.hardMaxDepth pool = 3) ∧
    (∀ (b : ModuleJS.Board) (hand : List ModuleJS.Tile) (t : ModuleJS.Tile)
      (side : Side) (d : Nat),
      (ModuleJS.getPlayableTiles (ModuleJS.simulatedBoardAfter b t side)
          (ModuleJS.remainingHandAfter hand t)).length > 0 →
      ModuleJS.minimaxEvaluate b hand t side (d + 2) =
        ModuleJS.evaluateMoveHeuristic b hand t side +
          ((ModuleJS.getPlayableTiles (ModuleJS.simulatedBoardAfter b t side)
              (ModuleJS.remainingHandAfter hand t)).length : ℚ) * 3 +
          ModuleJS.maxListQ (((ModuleJS.getPlayableTiles
                (ModuleJS.simulatedBoardAfter b t side)
                (ModuleJS.remainingHandAfter hand t)).take 3).map (fun fp =>
              ModuleJS.minimaxEvaluate (ModuleJS.simulatedBoardAfter b t side)
                (ModuleJS.remainingHandAfter hand t) fp.tile
                (ModuleJS.sides0 fp) (d + 1))) * (1 / 2) +
          ModuleJS.winBonus hand t) :=
  ⟨fun pool h => by simp [ScriptJS.hardMaxDepth, h],
   fun pool h => by simp [ScriptJS.hardMaxDepth, Nat.not_lt.mpr h],
   ModuleJS.minimax_deep_unfold⟩

theorem C7_witness :
    ScriptJS.hardMaxDepth pool6JS = 2 ∧
    ScriptJS.hardMaxDepth [s25JS] = 3 ∧
    ModuleJS.minimaxEvaluate b23M [t34M, t45M] t34M Side.right 2 =
      ModuleJS.evaluateMoveHeuristic b23M [t34M, t45M] t34M Side.right +
        ((ModuleJS.getPlayableTiles (ModuleJS.simulatedBoardAfter b23M t34M Side.right)
            (ModuleJS.remainingHandAfter [t34M, t45M] t34M)).length : ℚ) * 3 +
        ModuleJS.maxListQ (((ModuleJS.getPlayableTiles
              (ModuleJS.simulatedBoardAfter b23M t34M Side.right)
              (ModuleJS.remainingHandAfter [t34M, t45M] t34M)).take 3).map (fun fp =>
            ModuleJS.minimaxEvaluate (ModuleJS.simulatedBoardAfter b23M t34M Side.right)
              (ModuleJS.remainingHandAfter [t34M, t45M] t34M) fp.tile
              (ModuleJS.sides0 fp) 1)) * (1 / 2) +
        ModuleJS.winBonus [t34M, t45M] t34M :=
  ⟨C7_hard_search_shape.1 pool6JS (by decide),
   C7_hard_search_shape.2.1 [s25JS] (by decide),
   C7_hard_search_shape.2.2 b23M [t34M, t45M] t34M Side.right 0 (by decide)⟩

/-- C8 counterexample: `script.js`'s `Board.addTile` on a legal move does
NOT leave the input board unchanged — it mutates its receiver in place
(embedded as the returned post-state): after the accepted first placement
the board's tiles sequence and left open end differ from the inputs. -/
theorem C8_counterexample :
    (ScriptJS.Board.init.addTile s25JS Side.left).1 = true ∧
    (ScriptJS.Board.init.addTile s25JS Side.left).2.tiles ≠ ScriptJS.Board.init.tiles ∧
    (ScriptJS.Board.init.addTile s25JS Side.left).2.leftEnd ≠ ScriptJS.Board.init.leftEnd :=
  ⟨by decide, by decide, by decide⟩

/-- C8 (amended): the module variant's `placeLeft`/`placeRight` are pure
functions of their arguments — they build a new board (tiles prepended or
appended, history extended with a record of the input's previous open ends)
and the tile they insert is the validator's copy (the tile itself or a
rotated copy, never a write to the caller's tile).  `script.js`'s
`Board.addTile` instead updates its receiver and returns a success flag, but
search simulation operates on `cloneBoard`, which reproduces the tiles
sequence and both open-end scalars exactly (as an independent copy), so
simulated placements never touch the real board. -/
theorem C8_place_purity_and_clone :
    (∀ b : ScriptJS.Board, ScriptJS.cloneBoard b = b) ∧
    (∀ (b : ModuleJS.Board) (t : ModuleJS.Tile) (pi : ModuleJS.PlayInfo),
      ModuleJS.canPlayLeft b t = some pi →
      pi.tile = t ∨ pi.tile = ModuleJS.rotateTile t) ∧
    (∀ (b : ModuleJS.Board) (t : ModuleJS.Tile) (pi : ModuleJS.PlayInfo),
      ModuleJS.canPlayRight b t = some pi →
      pi.tile = t ∨ pi.tile = ModuleJS.rotateTile t) ∧
    (∀ (b : ModuleJS.Board) (pi : ModuleJS.PlayInfo),
      (ModuleJS.placeLeft b pi).tiles = pi.tile :: b.tiles ∧
      (ModuleJS.placeLeft b pi).history = b.history ++
        [{ action := "place", side := Side.left, tile := pi.tile,
           prevLeftValue := b.leftValue, prevRightValue := b.rightValue }]) ∧
    (∀ (b : ModuleJS.Board) (pi : ModuleJS.PlayInfo),
      (ModuleJS.placeRight b pi).tiles = b.tiles ++ [pi.tile] ∧
      (ModuleJS.placeRight b pi).history = b.history ++
        [{ action := "place", side := Side.right, tile := pi.tile,
           prevLeftValue := b.leftValue, prevRightValue := b.rightValue }]) :=
  ⟨ScriptJS.cloneBoard_eq, ModuleJS.canPlayLeft_tile_shape,
   ModuleJS.canPlayRight_tile_shape, ModuleJS.placeLeft_shape,
   ModuleJS.placeRight_shape⟩

theorem C8_witness :
    ScriptJS.cloneBoard b25JS = b25JS ∧
    (pi25M.tile = t25M ∨ pi25M.tile = ModuleJS.rotateTile t25M) :=
  ⟨C8_place_purity_and_clone.1 b25JS,
   C8_place_purity_and_clone.2.1 b23M t25M pi25M (by decide)⟩

/-- C9 counterexample: tile construction does not fail fast on out-of-range
end values — the `Tile` constructor of `script.js` performs no validation,
so a construction with ends 9 and 7 succeeds and stores both values
verbatim (neither rejected nor clamped). -/
theorem C9_counterexample :
    (ScriptJS.Tile.mk 9 7 0).left = 9 ∧ (ScriptJS.Tile.mk 9 7 0).right = 7 :=
  ⟨rfl, rfl⟩

/-- C9 (amended): no construction-time validation or clamping exists — the
constructor stores any end values verbatim; the range guarantee holds only
for the tiles the program itself creates: the `script.js` deal loop and the
module variant's `generateTiles` both produce exactly the 28 tiles with
`0 ≤ low ≤ high ≤ 6`. -/
theorem C9_no_construction_validation :
    (∀ l r i : Nat, (ScriptJS.Tile.mk l r i).left = l ∧
      (ScriptJS.Tile.mk l r i).right = r) ∧
    (∀ t ∈ ScriptJS.newGameTiles, t.left ≤ 6 ∧ t.right ≤ 6 ∧ t.left ≤ t.right) ∧
    ScriptJS.newGameTiles.length = 28 ∧
    (∀ t ∈ ModuleJS.generateTiles, t.a ≤ 6 ∧ t.b ≤ 6 ∧ t.a ≤ t.b) ∧
    ModuleJS.generateTiles.length = 28 :=
  ⟨fun l r i => ⟨rfl, rfl⟩, by decide, by decide, by decide, by decide⟩

theorem C9_witness :
    ((ScriptJS.Tile.mk 0 0 0).left ≤ 6 ∧ (ScriptJS.Tile.mk 0 0 0).right ≤ 6 ∧
      (ScriptJS.Tile.mk 0 0 0).left ≤ (ScriptJS.Tile.mk 0 0 0).right) ∧
    (t23M.a ≤ 6 ∧ t23M.b ≤ 6 ∧ t23M.a ≤ t23M.b) :=
  ⟨C9_no_construction_validation.2.1 (ScriptJS.Tile.mk 0 0 0) (by decide),
   C9_no_construction_validation.2.2.2.1 t23M (by decide)⟩

/-- C10: the stored difficulty is always one of the three valid strings.
Starting from the module initial value `'medium'`, any sequence of
`setAIDifficulty` calls keeps the state in {easy, medium, hard}; a call with
any other string falls through and leaves the stored value unchanged; and
`getAIDifficulty` returns the stored value. -/
theorem C10_difficulty_state :
    (∀ calls : List String,
      (calls.foldl (fun cur d => ModuleJS.setAIDifficulty d cur)
          ModuleJS.initialDifficulty) = "easy" ∨
      (calls.foldl (fun cur d => ModuleJS.setAIDifficulty d cur)
          ModuleJS.initialDifficulty) = "medium" ∨
      (calls.foldl (fun cur d => ModuleJS.setAIDifficulty d cur)
          ModuleJS.initialDifficulty) = "hard") ∧
    (∀ cur d : String, d ≠ "easy" → d ≠ "medium" → d ≠ "hard" →
      ModuleJS.setAIDifficulty d cur = cur) ∧
    (∀ cur : String, ModuleJS.getAIDifficulty cur = cur) := by
  refine ⟨?_, ?_, fun cur => rfl⟩
  · have hstep : ∀ (cur d : String),
        (cur = "easy" ∨ cur = "medium" ∨ cur = "hard") →
        (ModuleJS.setAIDifficulty d cur = "easy" ∨
          ModuleJS.setAIDifficulty d cur = "medium" ∨
          ModuleJS.setAIDifficulty d cur = "hard") := by
      intro cur d hcur
      unfold ModuleJS.setAIDifficulty
      by_cases h : (["easy", "medium", "hard"].contains d) = true
      · rw [if_pos h]
        simpa [List.contains_eq_any_beq, beq_iff_eq] using h
      · rw [if_neg h]
        exact hcur
    have hfold : ∀ (calls : List String) (cur : String),
        (cur = "easy" ∨ cur = "medium" ∨ cur = "hard") →
        ((calls.foldl (fun c d => ModuleJS.setAIDifficulty d c) cur) = "easy" ∨
          (calls.foldl (fun c d => ModuleJS.setAIDifficulty d c) cur) = "medium" ∨
          (calls.foldl (fun c d => ModuleJS.setAIDifficulty d c) cur) = "hard") := by
      intro calls
      induction calls with
      | nil => exact fun cur hcur => hcur
      | cons d rest ih =>
        intro cur hcur
        rw [List.foldl_cons]
        exact ih _ (hstep cur d hcur)
    exact fun calls => hfold calls ModuleJS.initialDifficulty (Or.inr (Or.inl rfl))
  · intro cur d h1 h2 h3
    unfold ModuleJS.setAIDifficulty
    rw [if_neg]
    simp only [List.contains_eq_any_beq, List.any_eq_true, beq_iff_eq]
    rintro ⟨x, hx, rfl⟩
    simp only [List.mem_cons, List.not_mem_nil, or_false] at hx
    rcases hx with hx | hx | hx
    · exact h1 hx
    · exact h2 hx
    · exact h3 hx

theorem C10_witness :
    ModuleJS.setAIDifficulty "expert" "hard" = "hard" ∧
    ModuleJS.getAIDifficulty "hard" = "hard" :=
  ⟨C10_difficulty_state.2.1 "hard" "expert" (by decide) (by decide) (by decide),
   C10_difficulty_state.2.2 "hard"⟩

end DominoBasico
